import Mathlib

/-!
Verification of the bytecode-compiler / stack-VM core of the
`monke-lang-interpreter` repository (Rust), against its specification.

The Lean definitions below are a shallow embedding of the Rust sources:

* `src/evaluator/types.rs`      → `Object`
* `src/parser/parser.rs` (AST)  → `Token`, `Expression`, `Statement`, `Program`
* `src/compiler/compiler.rs`    → `Compiler`, `compileStmt`/`compileExpr`/…, `compile`
* `src/vm/vm.rs`                → `Vm`, `run_loop`, `Vm.run`, …

The repository's `code/code.rs` module (opcode catalog, `make`, `read_u16`)
and `parser/ast.rs` are not part of the provided sources; those definitions
are modelled from the spec (section 4.1 and 6) and are marked as such.

Rust failure modes are embedded explicitly: `Err(msg)` becomes
`Failure.err msg`, and a Rust panic (a `todo!()` arm, an unguarded division
panic, an index panic) becomes `Failure.panics`.  Machine-integer widths:
`i64` values are modelled as unbounded `Int` (no claim under scrutiny
exercises the release-profile wrap-around of `+`, `-`, `*`), except that
`i64` division keeps both of its panic paths, which Rust raises in every
build profile: a zero divisor and the overflowing `i64::MIN / -1`.  The
`usize` stack-pointer arithmetic of `Vm::pop`, whose wrap-around the VM
relies on for its underflow error, is modelled with an explicit `% 2 ^ 64`
(release-profile wrapping semantics).
-/

/-- The two ways a fallible Rust function in this repository can fail:
returning an `Err` with a message, or panicking (`todo!()`, arithmetic
panic, slice-index panic). -/
inductive Failure where
  | err (msg : String)
  | panics
  deriving DecidableEq, Repr

/-- Runtime values (`Object` in `src/evaluator/types.rs`).  The payloads of
the reserved variants (`Return`, `Function`, `String`, `Builtin`, `Array`,
`HashTable`) live in source files outside the compiler/VM core and are
never constructed nor inspected by any code modelled here (both the
compiler core and the VM reach them only through catch-all `_` arms), so
they are carried as bare constructors. -/
inductive Object where
  | integer (value : Int)
  | boolean (value : Bool)
  | null
  | ret
  | function
  | str
  | builtin
  | array
  | hashTable
  deriving DecidableEq, Repr

/-- Lexer tokens (`src/lexer/token.rs` is outside the provided core; the
constructors are the ones named by the spec's token interface, §6).  Only
the operator tokens are ever inspected by the compiler and evaluator; the
rest fall into catch-all arms. -/
inductive Token where
  | plus
  | minus
  | asterisk
  | slash
  | lt
  | gt
  | eq
  | ne
  | bang
  | assign
  | semicolon
  | illegal
  deriving DecidableEq, Repr

mutual
/-- Expressions of the AST (`parser/ast.rs`, whose variants are fixed by the
`match` arms of `Compiler::compile` and `eval`).  Variants the core never
deconstructs (`identifier`, `stringLiteral`, `functionLiteral`, `call`,
`arrayLiteral`, `indexExpression`, `hashLiteral`) carry no payload: every
modelled function reaches them only through `todo!()` arms. -/
inductive Expression where
  | identifier
  | integerLiteral (value : Int)
  | stringLiteral
  | prefixExpr (token : Token) (right : Expression)
  | infixExpr (token : Token) (left : Expression) (right : Expression)
  | boolean (value : Bool)
  | ifExpr (condition : Expression) (consequence : Statement)
      (alternative : Option Statement)
  | functionLiteral
  | call
  | arrayLiteral
  | indexExpression
  | hashLiteral

/-- Statements of the AST: `Let`, `Return`, expression statements and block
statements (`Statement` in `parser/ast.rs`).  `Let` and `Return` carry no
payload because the compiler core and evaluator reach them only through
`todo!()` arms. -/
inductive Statement where
  | letStmt
  | returnStmt
  | expression (e : Expression)
  | block (statements : List Statement)
end

/-- The `Program` enum that `Compiler::compile` and `eval` match on; the
sub-node `.into()` conversions of the Rust code correspond to wrapping a
node in the matching constructor. -/
inductive Program where
  | statements (l : List Statement)
  | statement (s : Statement)
  | expression (e : Expression)
  | expressions (l : List Expression)

/-- Modelled from the spec (§4.1): the opcode catalog of `code/code.rs`
(not among the provided sources).  Stable numeric identifiers are assigned
in the order of the spec's table, `0` for `Constant` through `14` for
`Jump`. -/
inductive OpCodeType where
  | constant
  | pop
  | add
  | sub
  | mul
  | div
  | trueOp
  | falseOp
  | equal
  | notEqual
  | greaterThan
  | minus
  | bang
  | jumpNotTruthy
  | jump
  deriving DecidableEq, Repr

/-- Modelled from the spec (§4.1): each opcode's stable numeric identifier,
assigned in the order of the spec's opcode table. -/
def OpCodeType.toByte : OpCodeType → Nat
  | .constant => 0
  | .pop => 1
  | .add => 2
  | .sub => 3
  | .mul => 4
  | .div => 5
  | .trueOp => 6
  | .falseOp => 7
  | .equal => 8
  | .notEqual => 9
  | .greaterThan => 10
  | .minus => 11
  | .bang => 12
  | .jumpNotTruthy => 13
  | .jump => 14

/-- Modelled from the spec (§4.1): conversion from a byte back to an
opcode; fails (`TryInto` error) on a byte outside the defined set. -/
def byteToOp : Nat → Except Failure OpCodeType
  | 0 => .ok .constant
  | 1 => .ok .pop
  | 2 => .ok .add
  | 3 => .ok .sub
  | 4 => .ok .mul
  | 5 => .ok .div
  | 6 => .ok .trueOp
  | 7 => .ok .falseOp
  | 8 => .ok .equal
  | 9 => .ok .notEqual
  | 10 => .ok .greaterThan
  | 11 => .ok .minus
  | 12 => .ok .bang
  | 13 => .ok .jumpNotTruthy
  | 14 => .ok .jump
  | _ => .error (.err "could not convert byte to op code type")

/-- Modelled from the spec (§4.1): the declared operand widths of each
opcode — all currently defined non-zero-operand opcodes take exactly one
2-byte operand. -/
def OpCodeType.operandWidths : OpCodeType → List Nat
  | .constant => [2]
  | .jumpNotTruthy => [2]
  | .jump => [2]
  | _ => []

/-- The two bytes of a 2-byte big-endian operand. -/
def u16Bytes (operand : Nat) : List Nat :=
  [operand / 256 % 256, operand % 256]

/-- Modelled from the spec (§4.1): `make(op, operands)` writes the opcode
byte followed by each operand in its declared width, big-endian. -/
def make (op : OpCodeType) (operands : List Nat) : List Nat :=
  op.toByte ::
    ((op.operandWidths.zip operands).flatMap fun wo =>
      if wo.1 = 2 then u16Bytes wo.2 else [])

/-- Modelled from the spec (§4.1): `read_u16` decodes a 2-byte big-endian
operand starting at index `i`; per the spec a truncated operand read is an
error. -/
def read_u16_at (bytes : List Nat) (i : Nat) : Except Failure Nat :=
  match bytes.get? i, bytes.get? (i + 1) with
  | some b0, some b1 => .ok (b0 * 256 + b1)
  | _, _ => .error (.err "could not parse byte code")

/-- `EmittedInstruction` (compiler.rs): the opcode and byte position of an
emitted instruction. -/
structure EmittedInstruction where
  op_code : OpCodeType
  position : Nat
  deriving DecidableEq, Repr

/-- The compiler state (`Compiler` in compiler.rs). -/
structure Compiler where
  instructions : List Nat
  constants : List Object
  last_instruction : Option EmittedInstruction
  prev_instruction : Option EmittedInstruction
  deriving DecidableEq, Repr

/-- The `ByteCode` artifact handed from the compiler to the VM. -/
structure ByteCode where
  instructions : List Nat
  constants : List Object
  deriving DecidableEq, Repr

/-- `Compiler::KEKL_VALUE`, the placeholder operand of a not-yet-patched
jump. -/
def KEKL_VALUE : Nat := 9999

/-- `Compiler::new()`. -/
def Compiler.new : Compiler :=
  { instructions := [], constants := [], last_instruction := none,
    prev_instruction := none }

/-- `Compiler::add_constant`: append to the constants pool, returning the
new constant's index. -/
def add_constant (c : Compiler) (obj : Object) : Compiler × Nat :=
  ({ c with constants := c.constants ++ [obj] }, c.constants.length)

/-- `Compiler::add_instructions`: append raw instruction bytes, returning
the position of the first appended byte. -/
def add_instructions (c : Compiler) (instructions : List Nat) :
    Compiler × Nat :=
  ({ c with instructions := c.instructions ++ instructions },
    c.instructions.length)

/-- `Compiler::set_last_instruction`. -/
def set_last_instruction (c : Compiler) (op : OpCodeType) (pos : Nat) :
    Compiler :=
  { c with prev_instruction := c.last_instruction,
           last_instruction := some { op_code := op, position := pos } }

/-- `Compiler::emit`: `make` the instruction, append it, and record it as
the last emitted instruction; returns the new state and the instruction's
byte position. -/
def emit (c : Compiler) (op : OpCodeType) (operands : List Nat) :
    Compiler × Nat :=
  let instructions := make op operands
  let (c1, pos) := add_instructions c instructions
  (set_last_instruction c1 op pos, pos)

/-- `Compiler::last_instruction_is_pop`. -/
def last_instruction_is_pop (c : Compiler) : Bool :=
  match c.last_instruction with
  | some instruction =>
    match instruction.op_code with
    | .pop => true
    | _ => false
  | none => false

/-- `Compiler::remove_last_pop`: truncate the instruction stream at the
last instruction's byte position and restore `last_instruction` from
`prev_instruction`. -/
def remove_last_pop (c : Compiler) : Except Failure Compiler :=
  match c.last_instruction with
  | some i =>
    if i.position ≤ c.instructions.length then
      .ok { c with instructions := c.instructions.take i.position,
                   last_instruction := c.prev_instruction }
    else .error (.err "could not compile, failed to remove last pop")
  | none => .error (.err "could not compile, failed to remove last pop")

/-- `Compiler::replace_instructions`: overwrite bytes starting at `pos`
in-place; an overwrite past the end of either sequence is an error. -/
def replace_instructions (c : Compiler) (pos : Nat)
    (new_instructions : List Nat) : Except Failure Compiler :=
  if pos + new_instructions.length ≤ c.instructions.length then
    .ok { c with instructions :=
      (c.instructions.take pos) ++ new_instructions ++
        (c.instructions.drop (pos + new_instructions.length)) }
  else .error (.err "could not compile, failed to replace instructions")

/-- `Compiler::change_operand`: re-encode the opcode found at `pos` with
the new operand and overwrite it in place. -/
def change_operand (c : Compiler) (pos : Nat) (operand : Nat) :
    Except Failure Compiler :=
  match c.instructions.get? pos with
  | none => .error (.err "could not compile, failed change operand")
  | some byte =>
    match byteToOp byte with
    | .error _ => .error (.err "could not compile, failed change operand")
    | .ok op => replace_instructions c pos (make op [operand])

mutual
/-- The `Program::Statements` / `Statement::Block` arms of
`Compiler::compile`: compile each statement of the list in order. -/
def compileStmtList (c : Compiler) : List Statement → Except Failure Compiler
  | [] => .ok c
  | s :: rest => do
    let c1 ← compileStmt c s
    compileStmtList c1 rest

/-- The `Program::Statement` arm of `Compiler::compile`.  `Let` and
`Return` statements hit `todo!()` in the source (a panic). -/
def compileStmt (c : Compiler) : Statement → Except Failure Compiler
  | .letStmt => .error .panics
  | .returnStmt => .error .panics
  | .expression e => do
    let c1 ← compileExpr c e
    .ok (emit c1 .pop []).1
  | .block statements => compileStmtList c statements

/-- The `Program::Expression` arm of `Compiler::compile`.  The
`Identifier`, `StringLiteral`, `FunctionLiteral`, `Call`, `ArrayLiteral`,
`IndexExpression` and `HashLiteral` arms, and an infix token outside the
supported set, hit `todo!()` in the source (a panic). -/
def compileExpr (c : Compiler) : Expression → Except Failure Compiler
  | .identifier => .error .panics
  | .integerLiteral value =>
    let int := Object.integer value
    let (c1, operand) := add_constant c int
    .ok (emit c1 .constant [operand]).1
  | .stringLiteral => .error .panics
  | .prefixExpr token right => do
    let c1 ← compileExpr c right
    match token with
    | .bang => .ok (emit c1 .bang []).1
    | .minus => .ok (emit c1 .minus []).1
    | _ => .error (.err
        "could not compile prefix expression, bang or minus operators expected")
  | .infixExpr token left right =>
    if token = .lt then do
      let c1 ← compileExpr c right
      let c2 ← compileExpr c1 left
      .ok (emit c2 .greaterThan []).1
    else do
      let c1 ← compileExpr c left
      let c2 ← compileExpr c1 right
      match token with
      | .plus => .ok (emit c2 .add []).1
      | .minus => .ok (emit c2 .sub []).1
      | .asterisk => .ok (emit c2 .mul []).1
      | .slash => .ok (emit c2 .div []).1
      | .gt => .ok (emit c2 .greaterThan []).1
      | .eq => .ok (emit c2 .equal []).1
      | .ne => .ok (emit c2 .notEqual []).1
      | _ => .error .panics
  | .boolean value =>
    match value with
    | true => .ok (emit c .trueOp []).1
    | false => .ok (emit c .falseOp []).1
  | .ifExpr condition consequence alternative => do
    let c1 ← compileExpr c condition
    let (c2, jump_not_truthy_pos) := emit c1 .jumpNotTruthy [KEKL_VALUE]
    let c3 ← compileStmt c2 consequence
    let c4 ← if last_instruction_is_pop c3 then remove_last_pop c3 else .ok c3
    match alternative with
    | some alt => do
      let (c5, jump_pos) := emit c4 .jump [KEKL_VALUE]
      let after_consequence_pos := c5.instructions.length
      let c6 ← change_operand c5 jump_not_truthy_pos after_consequence_pos
      let c7 ← compileStmt c6 alt
      let c8 ← if last_instruction_is_pop c7 then remove_last_pop c7
               else .ok c7
      let after_alternative_pos := c8.instructions.length
      change_operand c8 jump_pos after_alternative_pos
    | none => do
      let after_consequence_pos := c4.instructions.length
      change_operand c4 jump_not_truthy_pos after_consequence_pos
  | .functionLiteral => .error .panics
  | .call => .error .panics
  | .arrayLiteral => .error .panics
  | .indexExpression => .error .panics
  | .hashLiteral => .error .panics
end

/-- `Compiler::compile`, dispatching on the `Program` wrapper exactly as
the source's top-level `match`.  The source `match` has no arm for
`Program::Expressions`; it is modelled as a panic. -/
def compile (c : Compiler) : Program → Except Failure Compiler
  | .statements l => compileStmtList c l
  | .statement s => compileStmt c s
  | .expression e => compileExpr c e
  | .expressions _ => .error .panics

/-- `Compiler::byte_code`. -/
def byte_code (c : Compiler) : ByteCode :=
  { instructions := c.instructions, constants := c.constants }

/-- `eval_prefix_expression` (evaluator.rs). -/
def eval_prefix_expression (token : Token) (right : Object) :
    Except Failure Object :=
  match token with
  | .bang =>
    match right with
    | .boolean b => .ok (.boolean (!b))
    | .null => .ok (.boolean true)
    | _ => .ok (.boolean false)
  | .minus =>
    match right with
    | .integer n => .ok (.integer (-n))
    | _ => .error (.err
        "unable to evaluate prefix expression, Integer number must follow Minus token")
  | _ => .error (.err
      "unable to evaluate prefix expression, bang or minus tokens expected")

/-- `eval_infix_expression` (evaluator.rs).  The `Slash` arm performs
Rust's `i64` division, which panics — in every build profile — on a zero
divisor and on the overflowing `i64::MIN / -1`; `Int.tdiv` is the
truncating division Rust uses on the remaining cases. -/
def eval_infix_expression (token : Token) (left right : Object) :
    Except Failure Object :=
  match left, right with
  | .integer int_left, .integer int_right =>
    match token with
    | .plus => .ok (.integer (int_left + int_right))
    | .minus => .ok (.integer (int_left - int_right))
    | .asterisk => .ok (.integer (int_left * int_right))
    | .slash =>
      if int_right = 0 ∨ (int_left = -(2 ^ 63) ∧ int_right = -1) then
        .error .panics
      else .ok (.integer (Int.tdiv int_left int_right))
    | .lt => .ok (.boolean (int_left < int_right))
    | .gt => .ok (.boolean (int_right < int_left))
    | .eq => .ok (.boolean (int_left = int_right))
    | .ne => .ok (.boolean (¬ (int_left = int_right)))
    | _ => .error (.err "unable to evaluate infix expression, unexpected token")
  | .boolean bool_left, .boolean bool_right =>
    match token with
    | .eq => .ok (.boolean (bool_left = bool_right))
    | .ne => .ok (.boolean (¬ (bool_left = bool_right)))
    | _ => .error (.err
        "unable to evaluate infix expression, eq or ne tokens expected")
  | _, _ => .error (.err
      "unable to evaluate infix expression, Integer numbers expected")

/-- The `Program::Expression` arm of `eval`: literals, prefix and infix
expressions are evaluated; every other expression form hits `todo!()` in
the source (a panic). -/
def evalExpr : Expression → Except Failure Object
  | .integerLiteral value => .ok (.integer value)
  | .boolean value => .ok (.boolean value)
  | .prefixExpr token right => do
    let r ← evalExpr right
    eval_prefix_expression token r
  | .infixExpr token left right => do
    let l ← evalExpr left
    let r ← evalExpr right
    eval_infix_expression token l r
  | _ => .error .panics

/-- The `Program::Statement` arm of `eval`: only expression statements are
handled; every other statement form hits `todo!()` in the source. -/
def evalStmt : Statement → Except Failure Object
  | .expression e => evalExpr e
  | _ => .error .panics

/-- `eval_statements` (evaluator.rs): the result starts as `Null` and is
overwritten by each statement's value in turn; the last value (or the
first failure) is returned. -/
def eval_statements : List Statement → Except Failure Object
  | [] => .ok Object.null
  | s :: rest => do
    let r ← evalStmt s
    match rest with
    | [] => .ok r
    | _ => eval_statements rest

/-- `eval` (evaluator.rs), dispatching on the `Program` wrapper exactly as
the source's top-level `match`; `Program::Expressions` hits `todo!()`. -/
def eval : Program → Except Failure Object
  | .statement s => evalStmt s
  | .statements l => eval_statements l
  | .expression e => evalExpr e
  | .expressions _ => .error .panics

/-- `STACK_SIZE` (vm.rs). -/
def STACK_SIZE : Nat := 2048

/-- The modulus of `usize` arithmetic (the build targets a 64-bit
platform); `Vm::pop` relies on release-profile wrapping subtraction. -/
def USIZE_MOD : Nat := 2 ^ 64

/-- Rust release-profile `usize` wrapping subtraction of 1. -/
def wrappingSub1 (n : Nat) : Nat :=
  (n + (USIZE_MOD - 1)) % USIZE_MOD

/-- The VM state (`Vm` in vm.rs): the bytecode plus a fixed 2048-slot
value stack and the stack pointer. -/
structure Vm where
  constants : List Object
  instructions : List Nat
  stack : List Object
  sp : Nat
  deriving DecidableEq, Repr

/-- `Vm::new`: stack filled with `Null`, `sp = 0`. -/
def Vm.new (bc : ByteCode) : Vm :=
  { constants := bc.constants, instructions := bc.instructions,
    stack := List.replicate STACK_SIZE Object.null, sp := 0 }

/-- `Vm::stack_top`: `stack.get(sp - 1)` — the `usize` subtraction wraps
when `sp = 0`, making the checked `get` return `None`. -/
def Vm.stack_top (vm : Vm) : Option Object :=
  vm.stack.get? (wrappingSub1 vm.sp)

/-- `Vm::last_popped_stack_elem`: the slot at `stack[sp]`. -/
def Vm.last_popped_stack_elem (vm : Vm) : Except Failure Object :=
  match vm.stack.get? vm.sp with
  | some obj => .ok obj
  | none => .error (.err "could not pop from the stack, index is out of bounds")

/-- `Vm::push` on the VM's (stack, sp) pair: error on a full stack, else
write the value at `sp` and increment `sp`. -/
def vm_push (stack : List Object) (sp : Nat) (object : Object) :
    Except Failure (List Object × Nat) :=
  if STACK_SIZE ≤ sp then .error (.err "stack overflow")
  else .ok (stack.set sp object, sp + 1)

/-- `Vm::pop` on the VM's (stack, sp) pair: `sp -= 1` (wrapping `usize`
subtraction) followed by a checked read of `stack[sp]`; on an empty stack
the wrapped index is out of range and the read reports an error.  The
stack contents are not modified, which is what makes
`last_popped_stack_elem` work. -/
def vm_pop (stack : List Object) (sp : Nat) : Except Failure (Nat × Object) :=
  let sp1 := wrappingSub1 sp
  match stack.get? sp1 with
  | some obj => .ok (sp1, obj)
  | none => .error (.err "could not pop from the stack, index is out of bounds")

/-- `Vm::execute_binary_operation`: pop right, pop left; both must be
integers.  The `Div` arm performs Rust's unguarded `i64` division, which
panics — in every build profile — on a zero divisor and on the
overflowing `i64::MIN / -1`. -/
def execute_binary_operation (stack : List Object) (sp : Nat)
    (op : OpCodeType) : Except Failure (List Object × Nat) := do
  let (sp1, right) ← vm_pop stack sp
  let (sp2, left) ← vm_pop stack sp1
  match left, right with
  | .integer left_int, .integer right_int =>
    match op with
    | .add => vm_push stack sp2 (.integer (left_int + right_int))
    | .sub => vm_push stack sp2 (.integer (left_int - right_int))
    | .mul => vm_push stack sp2 (.integer (left_int * right_int))
    | .div =>
      if right_int = 0 ∨ (left_int = -(2 ^ 63) ∧ right_int = -1) then
        .error .panics
      else vm_push stack sp2 (.integer (Int.tdiv left_int right_int))
    | _ => .error (.err
        "could not execute binary operation, wrong operation type")
  | _, _ => .error (.err "could not execute binary operation")

/-- `Vm::execute_comparison`: pop right, pop left; integers compare with
`Equal`/`NotEqual`/`GreaterThan`, booleans with all three (Rust's `bool`
ordering makes `true > false`); any other pairing is an error. -/
def execute_comparison (stack : List Object) (sp : Nat) (op : OpCodeType) :
    Except Failure (List Object × Nat) := do
  let (sp1, right) ← vm_pop stack sp
  let (sp2, left) ← vm_pop stack sp1
  match left, right with
  | .integer int1, .integer int2 =>
    match op with
    | .equal => vm_push stack sp2 (.boolean (int1 = int2))
    | .notEqual => vm_push stack sp2 (.boolean (¬ (int1 = int2)))
    | .greaterThan => vm_push stack sp2 (.boolean (int2 < int1))
    | _ => .error (.err "could not compare two objects, got wrong operator")
  | .boolean bool1, .boolean bool2 =>
    match op with
    | .equal => vm_push stack sp2 (.boolean (bool1 = bool2))
    | .notEqual => vm_push stack sp2 (.boolean (¬ (bool1 = bool2)))
    | .greaterThan => vm_push stack sp2 (.boolean (bool1 && !bool2))
    | _ => .error (.err "could not compare two objects, got wrong operator")
  | _, _ => .error (.err "could not compare two objects")

/-- The dispatch loop of `Vm::run`.  The Rust `while ip < len` loop is
rendered with an explicit fuel argument so that the definition is
structurally recursive; since every handled opcode advances `ip` by at
least one byte, `instructions.length + 1` fuel (what `Vm.run` supplies) is
always sufficient and the fuel-exhaustion branch is unreachable from
`Vm.run`.  The `JumpNotTruthy` and `Jump` opcodes fall into the source's
`_ => todo!()` arm: a panic. -/
def run_loop (instructions : List Nat) (constants : List Object) :
    Nat → List Object → Nat → Nat → Except Failure (List Object × Nat)
  | 0, stack, sp, ip =>
    if ip < instructions.length then .error (.err "loop fuel exhausted")
    else .ok (stack, sp)
  | fuel + 1, stack, sp, ip =>
    if h : ip < instructions.length then
      match byteToOp instructions[ip] with
      | .error e => .error e
      | .ok op =>
        match op with
        | .constant => do
          let const_idx ← read_u16_at instructions (ip + 1)
          match constants.get? const_idx with
          | none => .error (.err "could not parse byte code")
          | some obj => do
            let (stack1, sp1) ← vm_push stack sp obj
            run_loop instructions constants fuel stack1 sp1 (ip + 2 + 1)
        | .add | .sub | .mul | .div => do
          let (stack1, sp1) ← execute_binary_operation stack sp op
          run_loop instructions constants fuel stack1 sp1 (ip + 1)
        | .pop => do
          let (sp1, _) ← vm_pop stack sp
          run_loop instructions constants fuel stack sp1 (ip + 1)
        | .trueOp => do
          let (stack1, sp1) ← vm_push stack sp (.boolean true)
          run_loop instructions constants fuel stack1 sp1 (ip + 1)
        | .falseOp => do
          let (stack1, sp1) ← vm_push stack sp (.boolean false)
          run_loop instructions constants fuel stack1 sp1 (ip + 1)
        | .equal | .notEqual | .greaterThan => do
          let (stack1, sp1) ← execute_comparison stack sp op
          run_loop instructions constants fuel stack1 sp1 (ip + 1)
        | .bang => do
          let (sp1, popped) ← vm_pop stack sp
          match popped with
          | .boolean b => do
            let (stack1, sp2) ← vm_push stack sp1 (.boolean (!b))
            run_loop instructions constants fuel stack1 sp2 (ip + 1)
          | _ => do
            let (stack1, sp2) ← vm_push stack sp1 (.boolean false)
            run_loop instructions constants fuel stack1 sp2 (ip + 1)
        | .minus => do
          let (sp1, popped) ← vm_pop stack sp
          match popped with
          | .integer int => do
            let (stack1, sp2) ← vm_push stack sp1 (.integer (-int))
            run_loop instructions constants fuel stack1 sp2 (ip + 1)
          | _ => .error (.err "unsupported type for negation")
        | .jumpNotTruthy | .jump => .error .panics
    else .ok (stack, sp)

/-- `Vm::run`: execute from `ip = 0` on the VM's own instruction stream. -/
def Vm.run (vm : Vm) : Except Failure Vm :=
  match run_loop vm.instructions vm.constants (vm.instructions.length + 1)
      vm.stack vm.sp 0 with
  | .ok (stack, sp) => .ok { vm with stack := stack, sp := sp }
  | .error e => .error e

deriving instance DecidableEq for Except

set_option maxRecDepth 100000


/-! ## Basic unfolding lemmas -/

/-- Unfolding `Vm.new` on a literal bytecode record. -/
theorem Vm.new_mk (I : List Nat) (C : List Object) :
    Vm.new (ByteCode.mk I C) =
      Vm.mk C I (List.replicate STACK_SIZE Object.null) 0 := rfl

/-- Unfolding `Vm.run` on a literal VM record: run the dispatch loop with
`instructions.length + 1` fuel and repack the final stack. -/
theorem Vm.run_mk (C : List Object) (I : List Nat) (S : List Object)
    (sp : Nat) :
    Vm.run (Vm.mk C I S sp) =
      match run_loop I C (I.length + 1) S sp 0 with
      | .ok p => .ok (Vm.mk C I p.1 p.2)
      | .error e => .error e := by
  cases h : run_loop I C (I.length + 1) S sp 0 <;> simp [Vm.run, h]

/-! ## Sanity checks: the spec's concrete end-to-end scenarios -/

/-- End-to-end pipeline used by the repository's VM tests: parse (elided),
compile, run, read `last_popped_stack_elem`. -/
def pipeline (p : Program) : Except Failure Object := do
  let c ← compile Compiler.new p
  let vm ← Vm.run (Vm.new (byte_code c))
  vm.last_popped_stack_elem

example : pipeline (.statements
    [.expression (.infixExpr .plus (.integerLiteral 1) (.integerLiteral 2))]) =
    .ok (.integer 3) := by decide

example : (compile Compiler.new (.statements
    [.expression (.infixExpr .lt (.integerLiteral 1) (.integerLiteral 2))])).map
      (fun c => (c.instructions, c.constants)) =
    .ok ([0, 0, 0, 0, 0, 1, 10, 1], [.integer 2, .integer 1]) := by decide

example : (compile Compiler.new (.statements
    [ .expression (.ifExpr (.boolean true)
        (.block [.expression (.integerLiteral 10)]) none),
      .expression (.integerLiteral 3333) ])).map (fun c => c.instructions) =
    .ok [6, 13, 0, 7, 0, 0, 0, 1, 0, 0, 1, 1] := by decide

example : (compile Compiler.new (.statements
    [ .expression (.ifExpr (.boolean true)
        (.block [.expression (.integerLiteral 10)])
        (some (.block [.expression (.integerLiteral 20)]))),
      .expression (.integerLiteral 3333) ])).map (fun c => c.instructions) =
    .ok [6, 13, 0, 10, 0, 0, 0, 14, 0, 13, 0, 0, 1, 1, 0, 0, 2, 1] := by decide

example : pipeline (.statements
    [.expression (.prefixExpr .bang (.integerLiteral 5))]) =
    .ok (.boolean false) := by decide

/-! ## Claim C1 -/

/-- Claim C1: the claim says executing `Jump` sets `ip` to the 2-byte
operand (via `ip = operand - 1` before the bottom-of-loop `ip += 1`) and
`JumpNotTruthy` pops a value and conditionally does the same.  The code of
`Vm::run` has no arm for either opcode: both fall into `_ => todo!()` and
panic, before popping anything.  Bytecode `[Jump 0]`, `[JumpNotTruthy 0]`,
and `[True, JumpNotTruthy 0]` (truthy value on the stack) all panic. -/
theorem vm_jump_opcodes_hit_todo :
    Vm.run (Vm.new (ByteCode.mk [14, 0, 0] [])) =
      .error .panics ∧
    Vm.run (Vm.new (ByteCode.mk [13, 0, 0] [])) =
      .error .panics ∧
    Vm.run (Vm.new (ByteCode.mk [6, 13, 0, 0] [])) =
      .error .panics := by
  refine ⟨by decide, by decide, by decide⟩

/-! ## Claim C9 -/

/-- Claim C9: the claim says `compile` returns an `Err` with a clear "not
yet supported" message on unimplemented constructs.  In the source every
such arm (`Let`, `Return`, identifier, string literal, function literal,
call, array literal, index expression, hash literal, and an unsupported
infix token) is `todo!()`: the compiler panics — it aborts without
producing an error value. -/
theorem compile_unimplemented_constructs_panic :
    compile Compiler.new (.statement .letStmt) = .error .panics ∧
    compile Compiler.new (.statement .returnStmt) = .error .panics ∧
    compile Compiler.new (.expression .identifier) = .error .panics ∧
    compile Compiler.new (.expression .stringLiteral) = .error .panics ∧
    compile Compiler.new (.expression .functionLiteral) = .error .panics ∧
    compile Compiler.new (.expression .call) = .error .panics ∧
    compile Compiler.new (.expression .arrayLiteral) = .error .panics ∧
    compile Compiler.new (.expression .indexExpression) = .error .panics ∧
    compile Compiler.new (.expression .hashLiteral) = .error .panics ∧
    compile Compiler.new (.expression
      (.infixExpr .assign (.integerLiteral 1) (.integerLiteral 2))) =
      .error .panics := by
  refine ⟨rfl, rfl, rfl, rfl, rfl, rfl, rfl, rfl, rfl, rfl⟩

/-! ## Claim C3 -/

/-- Claim C3 (counterexample): the claim says `Bang` pushes
`Boolean(true)` when the popped value is `Boolean(false)` *or `Null`*.
Running `Constant 0; Bang` with `Null` in the constants pool pops `Null`
and pushes `Boolean(false)` — `Null` falls into the VM's catch-all arm,
not the truthiness rule the claim describes. -/
theorem bang_on_null_pushes_false :
    (Vm.run (Vm.new (ByteCode.mk [0, 0, 0, 12] [Object.null]))).map Vm.stack_top =
      .ok (some (Object.boolean false)) ∧
    ¬ (Vm.run (Vm.new (ByteCode.mk [0, 0, 0, 12] [Object.null]))).map Vm.stack_top =
      .ok (some (Object.boolean true)) := by
  refine ⟨by decide, by decide⟩

/-- Claim C3 (amended): executing `Bang` with a value `v` on top of the
stack pops it and pushes `Boolean(!b)` when `v = Boolean(b)` and
`Boolean(false)` for every other value (including `Null`); it never
returns an error. -/
theorem bang_step_behavior (v : Object) :
    Vm.run (Vm.mk [] [OpCodeType.bang.toByte]
        ((List.replicate STACK_SIZE Object.null).set 0 v) 1) =
    .ok (Vm.mk [] [OpCodeType.bang.toByte]
        ((List.replicate STACK_SIZE Object.null).set 0
          (match v with
           | .boolean b => Object.boolean (!b)
           | _ => Object.boolean false)) 1) := by
  cases v <;> rw [Vm.run_mk] <;> rfl

/-! ## Claim C4 -/

/-- Claim C4 (counterexample): the claim says a `Div` with divisor
`Integer(0)` makes `run` return an error.  Running
`Constant 0; Constant 1; Div` over constants `[1, 0]` panics (Rust's
unguarded `i64` division) — `run` crashes rather than returning an `Err`
value. -/
theorem div_by_zero_panics :
    Vm.run (Vm.new (ByteCode.mk [0, 0, 0, 0, 0, 1, 5] [.integer 1, .integer 0])) = .error .panics ∧
    ¬ ∃ msg, Vm.run (Vm.new (ByteCode.mk [0, 0, 0, 0, 0, 1, 5] [.integer 1, .integer 0])) = .error (.err msg) := by
  have h : Vm.run (Vm.new (ByteCode.mk [0, 0, 0, 0, 0, 1, 5] [.integer 1, .integer 0])) = .error .panics := by decide
  refine ⟨h, ?_⟩
  rintro ⟨msg, hm⟩
  rw [h] at hm
  exact Failure.noConfusion (Except.error.inj hm)

/-! ## Claim C5 -/

/-- Claim C5: compiling `a < b` produces exactly the result of compiling
`b > a` from the same compiler state: the `Lt` arm compiles the right
operand, then the left operand, then emits `GreaterThan` — the same
sequence the `Gt` arm performs on the swapped operands.  (There is no
`LessThan` opcode in the catalog at all.) -/
theorem lt_compiles_as_swapped_gt (c : Compiler) (a b : Expression) :
    compile c (.expression (.infixExpr .lt a b)) =
    compile c (.expression (.infixExpr .gt b a)) := rfl

/-! ## Claim C8 -/

/-- Claim C8: popping with `sp = 0` is reported as an error: the wrapping
`usize` subtraction produces an out-of-range index, the checked `get`
yields `None`, and `pop` (hence `run`) returns the underflow `Err` — for
any stack shorter than `2^64` slots, and concretely for a `run` of the
bytecode `[Pop]` on a fresh VM. -/
theorem pop_on_empty_stack_errors :
    (∀ stack : List Object, stack.length < USIZE_MOD →
      vm_pop stack 0 =
        .error (.err "could not pop from the stack, index is out of bounds")) ∧
    Vm.run (Vm.new (ByteCode.mk [OpCodeType.pop.toByte] [])) =
      .error (.err "could not pop from the stack, index is out of bounds") := by
  constructor
  · intro stack h
    have hnone : stack.get? (wrappingSub1 0) = none := by
      rw [show wrappingSub1 0 = USIZE_MOD - 1 from by decide]
      exact List.get?_eq_none.mpr (by revert h; unfold USIZE_MOD; omega)
    simp only [vm_pop]
    rw [hnone]
  · decide

/-- Witness for `pop_on_empty_stack_errors` on the VM's actual 2048-slot
stack. -/
theorem pop_on_empty_stack_errors_witness :
    vm_pop (List.replicate STACK_SIZE Object.null) 0 =
      .error (.err "could not pop from the stack, index is out of bounds") :=
  pop_on_empty_stack_errors.1 _
    (by simp [STACK_SIZE, USIZE_MOD])

/-! ## Claim C10 -/

/-- Claim C10: `remove_last_pop` changes only the instruction stream: the
constants pool is untouched, and the stream is truncated exactly at the
recorded `Pop`'s byte position (bytes strictly before it survive, bytes at
or after it are discarded); `last_instruction` is restored from
`prev_instruction`. -/
theorem remove_last_pop_effect (c : Compiler) (i : EmittedInstruction)
    (c' : Compiler) (hlast : c.last_instruction = some i)
    (h : remove_last_pop c = .ok c') :
    c'.constants = c.constants ∧
    c'.instructions = c.instructions.take i.position ∧
    c'.last_instruction = c.prev_instruction ∧
    c'.prev_instruction = c.prev_instruction := by
  simp only [remove_last_pop, hlast] at h
  by_cases hle : i.position ≤ c.instructions.length
  · rw [if_pos hle] at h
    cases h
    exact ⟨rfl, rfl, rfl, rfl⟩
  · rw [if_neg hle] at h
    cases h

/-- Witness for `remove_last_pop_effect`: eliding the trailing `Pop` of
the compiled `10;` (stream `Constant 0; Pop`, constant pool `[10]`). -/
theorem remove_last_pop_effect_witness :
    (Compiler.mk [0, 0, 0] [Object.integer 10]
        (some ⟨.constant, 0⟩) (some ⟨.constant, 0⟩)).constants =
      (Compiler.mk [0, 0, 0, 1] [Object.integer 10]
        (some ⟨.pop, 3⟩) (some ⟨.constant, 0⟩)).constants ∧
    (Compiler.mk [0, 0, 0] [Object.integer 10]
        (some ⟨.constant, 0⟩) (some ⟨.constant, 0⟩)).instructions =
      (Compiler.mk [0, 0, 0, 1] [Object.integer 10]
        (some ⟨.pop, 3⟩) (some ⟨.constant, 0⟩)).instructions.take 3 ∧
    (Compiler.mk [0, 0, 0] [Object.integer 10]
        (some ⟨.constant, 0⟩) (some ⟨.constant, 0⟩)).last_instruction =
      (Compiler.mk [0, 0, 0, 1] [Object.integer 10]
        (some ⟨.pop, 3⟩) (some ⟨.constant, 0⟩)).prev_instruction ∧
    (Compiler.mk [0, 0, 0] [Object.integer 10]
        (some ⟨.constant, 0⟩) (some ⟨.constant, 0⟩)).prev_instruction =
      (Compiler.mk [0, 0, 0, 1] [Object.integer 10]
        (some ⟨.pop, 3⟩) (some ⟨.constant, 0⟩)).prev_instruction :=
  remove_last_pop_effect
    (Compiler.mk [0, 0, 0, 1] [Object.integer 10]
      (some ⟨.pop, 3⟩) (some ⟨.constant, 0⟩))
    ⟨.pop, 3⟩ _ rfl (by decide)

/-! ## Field-effect lemmas for the compiler helpers -/

theorem emit_instructions (c : Compiler) (op : OpCodeType) (ops : List Nat) :
    (emit c op ops).1.instructions = c.instructions ++ make op ops := rfl

theorem emit_constants (c : Compiler) (op : OpCodeType) (ops : List Nat) :
    (emit c op ops).1.constants = c.constants := rfl

theorem emit_last (c : Compiler) (op : OpCodeType) (ops : List Nat) :
    (emit c op ops).1.last_instruction =
      some ⟨op, c.instructions.length⟩ := rfl

theorem emit_prev (c : Compiler) (op : OpCodeType) (ops : List Nat) :
    (emit c op ops).1.prev_instruction = c.last_instruction := rfl

theorem emit_pos (c : Compiler) (op : OpCodeType) (ops : List Nat) :
    (emit c op ops).2 = c.instructions.length := rfl

/-- Inversion for a successful `Except` bind. -/
theorem except_bind_ok {α β : Type} {x : Except Failure α}
    {f : α → Except Failure β} {b : β} (h : (x >>= f) = .ok b) :
    ∃ a, x = .ok a ∧ f a = .ok b := by
  cases x with
  | ok a => exact ⟨a, rfl, h⟩
  | error e => exact absurd h (by intro hh; cases hh)

/-- `change_operand` touches only the instruction bytes: the constants pool
and the last/prev instruction records are unchanged, and the byte length is
preserved. -/
theorem change_operand_fields (c : Compiler) (pos operand : Nat)
    (c' : Compiler) (h : change_operand c pos operand = .ok c') :
    c'.constants = c.constants ∧
    c'.last_instruction = c.last_instruction ∧
    c'.prev_instruction = c.prev_instruction := by
  unfold change_operand replace_instructions at h
  split at h
  · cases h
  · split at h
    · cases h
    · split at h
      · cases h
        exact ⟨rfl, rfl, rfl⟩
      · cases h

/-- Characterisation of `last_instruction_is_pop = true`. -/
theorem is_pop_iff (c : Compiler) :
    last_instruction_is_pop c = true ↔
      ∃ pos, c.last_instruction = some ⟨OpCodeType.pop, pos⟩ := by
  unfold last_instruction_is_pop
  cases hl : c.last_instruction with
  | none => simp
  | some i =>
    obtain ⟨op, pos⟩ := i
    cases op <;> simp

/-- With `last_instruction_is_pop = false`, a recorded last instruction is
not a `Pop`. -/
theorem is_pop_false (c : Compiler) (i : EmittedInstruction)
    (hl : c.last_instruction = some i)
    (h : last_instruction_is_pop c = false) : i.op_code ≠ .pop := by
  intro hop
  unfold last_instruction_is_pop at h
  rw [hl] at h
  obtain ⟨op, pos⟩ := i
  cases op <;> simp_all

/-- Distributing a bind over the two branches of an `if` (the shape of the
do-notation join point in the compiled `if` arm handling). -/
theorem if_bind_comm {α β : Type} {P : Prop} [Decidable P]
    (a b : Except Failure α) (f : α → Except Failure β) :
    (if P then a >>= f else b >>= f) = (if P then a else b) >>= f := by
  by_cases h : P <;> simp [h]

/-! ## The compiler never leaves a `Pop` as the recorded last instruction
of an expression -/

/-- The depth-2 elision invariant: whenever the recorded last instruction
is a `Pop`, the recorded previous instruction exists and is not a `Pop`
(so `remove_last_pop` restores a non-`Pop` last instruction). -/
def GoodLP (c : Compiler) : Prop :=
  ∀ i, c.last_instruction = some i → i.op_code = .pop →
    ∃ j, c.prev_instruction = some j ∧ j.op_code ≠ .pop

/-- The elision step of the `if` compilation (`if last_instruction_is_pop
then remove_last_pop`) always leaves a recorded non-`Pop` last
instruction, provided the incoming state satisfies `GoodLP` and records
some last instruction. -/
theorem elide_step_last (c3 c4 : Compiler) (hg : GoodLP c3)
    (hsome : ∃ i, c3.last_instruction = some i)
    (h : (if last_instruction_is_pop c3 = true then remove_last_pop c3
          else Except.ok c3) = .ok c4) :
    ∃ i, c4.last_instruction = some i ∧ i.op_code ≠ .pop := by
  by_cases hpop : last_instruction_is_pop c3 = true
  · rw [if_pos hpop] at h
    obtain ⟨pos, hl3⟩ := (is_pop_iff c3).mp hpop
    obtain ⟨j, hj, hjne⟩ := hg _ hl3 rfl
    have heff := remove_last_pop_effect c3 _ c4 hl3 h
    exact ⟨j, by rw [heff.2.2.1, hj], hjne⟩
  · rw [if_neg hpop] at h
    cases h
    obtain ⟨i3, hi3⟩ := hsome
    exact ⟨i3, hi3, is_pop_false c3 i3 hi3 (by simpa using hpop)⟩

mutual
/-- A successfully compiled expression always records a last emitted
instruction, and it is never a `Pop`. -/
theorem compileExpr_last (e : Expression) (c c' : Compiler)
    (h : compileExpr c e = .ok c') :
    ∃ i, c'.last_instruction = some i ∧ i.op_code ≠ .pop := by
  cases e with
  | identifier => cases h
  | integerLiteral v =>
    cases h
    exact ⟨_, rfl, by simp⟩
  | stringLiteral => cases h
  | prefixExpr token right =>
    rw [compileExpr] at h
    obtain ⟨c1, hc1, h⟩ := except_bind_ok h
    cases token <;> first
      | (cases h; exact ⟨_, rfl, by simp⟩)
      | cases h
  | infixExpr token left right =>
    rw [compileExpr] at h
    by_cases ht : token = Token.lt
    · rw [if_pos ht] at h
      obtain ⟨c1, hc1, h⟩ := except_bind_ok h
      obtain ⟨c2, hc2, h⟩ := except_bind_ok h
      cases h
      exact ⟨_, rfl, by simp⟩
    · rw [if_neg ht] at h
      obtain ⟨c1, hc1, h⟩ := except_bind_ok h
      obtain ⟨c2, hc2, h⟩ := except_bind_ok h
      cases token <;> first
        | (cases h; exact ⟨_, rfl, by simp⟩)
        | cases h
  | boolean v =>
    cases v <;> (cases h; exact ⟨_, rfl, by simp⟩)
  | ifExpr condition consequence alternative =>
    rw [compileExpr] at h
    obtain ⟨c1, hc1, h⟩ := except_bind_ok h
    obtain ⟨c3, hc3, h⟩ := except_bind_ok h
    have hstmt := compileStmt_keeps consequence
      (emit c1 .jumpNotTruthy [KEKL_VALUE]).1 c3
      (fun i hi hpop => by rw [emit_last] at hi; cases hi; cases hpop) hc3
    try simp only [] at h
    rw [if_bind_comm] at h
    obtain ⟨c4, hc4, h⟩ := except_bind_ok h
    have hc4last := elide_step_last c3 c4 hstmt.1
      (hstmt.2 ⟨_, emit_last c1 .jumpNotTruthy [KEKL_VALUE]⟩) hc4
    try simp only [] at h
    cases alternative with
    | none =>
      obtain ⟨i4, hi4, hi4ne⟩ := hc4last
      have heff := change_operand_fields c4 _ _ c' h
      exact ⟨i4, by rw [heff.2.1, hi4], hi4ne⟩
    | some alt =>
      rw [show emit c4 OpCodeType.jump [KEKL_VALUE] =
        ((emit c4 OpCodeType.jump [KEKL_VALUE]).1,
          (emit c4 OpCodeType.jump [KEKL_VALUE]).2) from rfl] at h
      try simp only [] at h
      obtain ⟨c6, hc6, h⟩ := except_bind_ok h
      obtain ⟨c7, hc7, h⟩ := except_bind_ok h
      have hc6f := change_operand_fields _ _ _ c6 hc6
      have hstmt7 := compileStmt_keeps alt c6 c7
        (fun i hi hpop => by
          rw [hc6f.2.1, emit_last] at hi; cases hi; cases hpop) hc7
      try simp only [] at h
      rw [if_bind_comm] at h
      obtain ⟨c8, hc8, h⟩ := except_bind_ok h
      have hc8last := elide_step_last c7 c8 hstmt7.1
        (hstmt7.2 ⟨_, by rw [hc6f.2.1]; exact emit_last c4 .jump [KEKL_VALUE]⟩)
        hc8
      try simp only [] at h
      obtain ⟨i8, hi8, hi8ne⟩ := hc8last
      have heff := change_operand_fields c8 _ _ c' h
      exact ⟨i8, by rw [heff.2.1, hi8], hi8ne⟩
  | functionLiteral => cases h
  | call => cases h
  | arrayLiteral => cases h
  | indexExpression => cases h
  | hashLiteral => cases h

/-- Compiling a statement preserves the elision invariant `GoodLP` and
never forgets a recorded last instruction. -/
theorem compileStmt_keeps (s : Statement) (c c' : Compiler) (hg : GoodLP c)
    (h : compileStmt c s = .ok c') :
    GoodLP c' ∧
      ((∃ i, c.last_instruction = some i) →
        ∃ i, c'.last_instruction = some i) := by
  cases s with
  | letStmt => cases h
  | returnStmt => cases h
  | expression e =>
    rw [compileStmt] at h
    obtain ⟨c1, hc1, h⟩ := except_bind_ok h
    obtain ⟨i1, hi1, hi1ne⟩ := compileExpr_last e c c1 hc1
    cases h
    constructor
    · intro i hi hpop
      rw [emit_last] at hi
      exact ⟨i1, by rw [emit_prev, hi1], hi1ne⟩
    · intro _
      exact ⟨_, emit_last c1 .pop []⟩
  | block statements =>
    rw [compileStmt] at h
    exact compileStmtList_keeps statements c c' hg h

/-- Compiling a statement list preserves the elision invariant `GoodLP`
and never forgets a recorded last instruction. -/
theorem compileStmtList_keeps (l : List Statement) (c c' : Compiler)
    (hg : GoodLP c) (h : compileStmtList c l = .ok c') :
    GoodLP c' ∧
      ((∃ i, c.last_instruction = some i) →
        ∃ i, c'.last_instruction = some i) := by
  cases l with
  | nil =>
    cases h
    exact ⟨hg, fun hi => hi⟩
  | cons s rest =>
    rw [compileStmtList] at h
    obtain ⟨c1, hc1, h⟩ := except_bind_ok h
    have h1 := compileStmt_keeps s c c1 hg hc1
    have h2 := compileStmtList_keeps rest c1 c' h1.1 h
    exact ⟨h2.1, fun hi => h2.2 (h1.2 hi)⟩
end

/-- Binding a successful `Except` computation just applies the
continuation. -/
theorem ok_bind {α β : Type} (a : α) (f : α → Except Failure β) :
    (Except.ok a >>= f) = f a := rfl

/-! ## Claim C6 -/

/-- Claim C6: for an `if` arm whose block body is a single expression
statement, the compiler's arm handling (compile the arm, then elide a
trailing `Pop` — compiler.rs lines 132-136) yields exactly the instruction
stream of the bare expression: the arm's emitted `Pop` is removed by
truncating at its byte position, `last_instruction` is restored to the
expression's own last (value-producing) instruction, and that instruction
is never a `Pop`. -/
theorem if_arm_single_expression_elides_pop (c cE : Compiler)
    (e : Expression) (h : compileExpr c e = .ok cE) :
    (do
      let c1 ← compileStmt c (.block [.expression e])
      if last_instruction_is_pop c1 = true then remove_last_pop c1
      else Except.ok c1) =
      .ok (Compiler.mk cE.instructions cE.constants cE.last_instruction
        cE.last_instruction) ∧
    ∃ i, cE.last_instruction = some i ∧ i.op_code ≠ .pop := by
  refine ⟨?_, compileExpr_last e c cE h⟩
  have hstep : compileStmt c (.block [.expression e]) =
      .ok (emit cE .pop []).1 := by
    rw [compileStmt, compileStmtList, compileStmt, h, ok_bind, ok_bind,
      compileStmtList]
  rw [hstep, ok_bind]
  have hpop : last_instruction_is_pop (emit cE .pop []).1 = true :=
    (is_pop_iff _).mpr ⟨_, emit_last cE .pop []⟩
  rw [if_pos hpop]
  unfold remove_last_pop
  rw [emit_last]
  dsimp only
  rw [if_pos (by rw [emit_instructions]; simp)]
  simp only [emit_instructions, emit_constants, emit_prev]
  rw [List.take_left]

/-- Witness for `if_arm_single_expression_elides_pop`: the arm `{ 10 }`
compiled from a fresh compiler — the arm's stream ends at the `Constant 0`
instruction, not at a `Pop`. -/
theorem if_arm_single_expression_elides_pop_witness :
    (do
      let c1 ← compileStmt Compiler.new
        (.block [.expression (.integerLiteral 10)])
      if last_instruction_is_pop c1 = true then remove_last_pop c1
      else Except.ok c1) =
      .ok (Compiler.mk
        (Compiler.mk [0, 0, 0] [Object.integer 10]
          (some ⟨.constant, 0⟩) none).instructions
        (Compiler.mk [0, 0, 0] [Object.integer 10]
          (some ⟨.constant, 0⟩) none).constants
        (Compiler.mk [0, 0, 0] [Object.integer 10]
          (some ⟨.constant, 0⟩) none).last_instruction
        (Compiler.mk [0, 0, 0] [Object.integer 10]
          (some ⟨.constant, 0⟩) none).last_instruction) ∧
    ∃ i, (Compiler.mk [0, 0, 0] [Object.integer 10]
        (some ⟨.constant, 0⟩) none).last_instruction = some i ∧
      i.op_code ≠ .pop :=
  if_arm_single_expression_elides_pop Compiler.new
    (Compiler.mk [0, 0, 0] [Object.integer 10] (some ⟨.constant, 0⟩) none)
    (.integerLiteral 10) (by decide)

/-! ## Claim C2 infrastructure: the flat subset both back ends implement -/

/-- The infix tokens the compiler and the evaluator both implement. -/
def flatTok (t : Token) : Prop :=
  t = .plus ∨ t = .minus ∨ t = .asterisk ∨ t = .slash ∨
  t = .lt ∨ t = .gt ∨ t = .eq ∨ t = .ne

/-- Expressions built from integer and boolean literals, prefix `!` / `-`
and the eight supported infix operators — the subset of the language that
both the tree-walking evaluator and the compiler/VM pair implement without
reaching a `todo!()`. -/
inductive FlatE : Expression → Prop where
  | int (n : Int) : FlatE (.integerLiteral n)
  | bool (b : Bool) : FlatE (.boolean b)
  | bang (r : Expression) : FlatE r → FlatE (.prefixExpr .bang r)
  | neg (r : Expression) : FlatE r → FlatE (.prefixExpr .minus r)
  | inf (t : Token) (a b : Expression) : flatTok t →
      FlatE a → FlatE b → FlatE (.infixExpr t a b)

/-- The constants pool a flat expression contributes, in emission order. -/
def constsE : Expression → List Object
  | .integerLiteral n => [.integer n]
  | .prefixExpr _ r => constsE r
  | .infixExpr t a b =>
    if t = .lt then constsE b ++ constsE a else constsE a ++ constsE b
  | _ => []

/-- The opcode emitted for a supported non-`<` infix token. -/
def infixOp : Token → OpCodeType
  | .plus => .add
  | .minus => .sub
  | .asterisk => .mul
  | .slash => .div
  | .gt => .greaterThan
  | .eq => .equal
  | .ne => .notEqual
  | _ => .pop

/-- The instruction bytes a flat expression compiles to, given that `k`
constants precede its own in the pool. -/
def codeE : Expression → Nat → List Nat
  | .integerLiteral _, k => make .constant [k]
  | .boolean true, _ => make .trueOp []
  | .boolean false, _ => make .falseOp []
  | .prefixExpr t r, k =>
    codeE r k ++ make (if t = .bang then .bang else .minus) []
  | .infixExpr t a b, k =>
    if t = .lt then
      codeE b k ++ codeE a (k + (constsE b).length) ++ make .greaterThan []
    else
      codeE a k ++ codeE b (k + (constsE a).length) ++ make (infixOp t) []
  | _, _ => []

/-- The number of instructions (VM dispatch steps) in a flat expression's
compiled code. -/
def instrCount : Expression → Nat
  | .integerLiteral _ => 1
  | .boolean _ => 1
  | .prefixExpr _ r => instrCount r + 1
  | .infixExpr _ a b => instrCount a + instrCount b + 1
  | _ => 0

/-- `seg` occurs as a contiguous segment of `l` starting at offset
`off`. -/
def SegAt {α : Type} (l : List α) (off : Nat) (seg : List α) : Prop :=
  ∀ j, j < seg.length → l.get? (off + j) = seg.get? j

theorem segAt_append {α : Type} {l : List α} {off : Nat}
    {seg1 seg2 : List α} :
    SegAt l off (seg1 ++ seg2) ↔
      SegAt l off seg1 ∧ SegAt l (off + seg1.length) seg2 := by
  constructor
  · intro h
    constructor
    · intro j hj
      have := h j (by simp; omega)
      rwa [List.get?_append hj] at this
    · intro j hj
      have := h (seg1.length + j) (by simp; omega)
      rwa [List.get?_append_right (by omega), Nat.add_sub_cancel_left,
        ← Nat.add_assoc] at this
  · intro ⟨h1, h2⟩ j hj
    rcases Nat.lt_or_ge j seg1.length with hlt | hge
    · rw [List.get?_append hlt]
      exact h1 j hlt
    · rw [List.get?_append_right hge]
      have := h2 (j - seg1.length) (by simp at hj; omega)
      rwa [show off + seg1.length + (j - seg1.length) = off + j from by omega]
        at this

theorem segAt_nil {α : Type} {l : List α} {off : Nat} : SegAt l off [] := by
  intro j hj
  cases hj

theorem segAt_single {α : Type} {l : List α} {off : Nat} {b : α} :
    SegAt l off [b] ↔ l.get? off = some b := by
  constructor
  · intro h
    simpa using h 0 (by simp)
  · intro h j hj
    match j, hj with
    | 0, _ => simpa using h

/-- A byte at an offset covered by a segment is inside the list. -/
theorem SegAt.lt_length {α : Type} {l : List α} {off : Nat} {seg : List α}
    (h : SegAt l off seg) (hne : 0 < seg.length) : off < l.length := by
  have h0 := h 0 hne
  rw [Nat.add_zero] at h0
  cases hg : seg.get? 0 with
  | none => rw [List.get?_eq_none] at hg; omega
  | some a =>
    rw [hg] at h0
    exact (List.get?_eq_some.mp h0).1

/-! ## Single-step characterisations of the VM dispatch loop -/

theorem err_bind {α β : Type} (e : Failure) (f : α → Except Failure β) :
    (Except.error e >>= f) = .error e := rfl

theorem wrappingSub1_pos (n : Nat) (h0 : 0 < n) (hlt : n < USIZE_MOD) :
    wrappingSub1 n = n - 1 := by
  unfold wrappingSub1 USIZE_MOD at *
  omega

theorem vm_pop_ok (stack : List Object) (sp : Nat) (x : Object)
    (h0 : 0 < sp) (hlt : sp < USIZE_MOD)
    (hx : stack.get? (sp - 1) = some x) :
    vm_pop stack sp = .ok (sp - 1, x) := by
  unfold vm_pop
  rw [wrappingSub1_pos sp h0 hlt]
  show (match stack.get? (sp - 1) with
    | some obj => Except.ok (sp - 1, obj)
    | none => Except.error
        (Failure.err "could not pop from the stack, index is out of bounds")) =
    Except.ok (sp - 1, x)
  rw [hx]

theorem vm_push_ok (stack : List Object) (sp : Nat) (obj : Object)
    (h : sp < STACK_SIZE) :
    vm_push stack sp obj = .ok (stack.set sp obj, sp + 1) := by
  unfold vm_push
  rw [if_neg (by omega)]

theorem vm_push_err (stack : List Object) (sp : Nat) (obj : Object)
    (h : STACK_SIZE ≤ sp) :
    vm_push stack sp obj = .error (.err "stack overflow") := by
  unfold vm_push
  rw [if_pos h]

/-- A set slot reads back the written value (when in range). -/
theorem get?_set_self (stack : List Object) (sp : Nat) (obj : Object)
    (h : sp < stack.length) :
    (stack.set sp obj).get? sp = some obj := by
  rw [List.get?_set_eq, List.get?_eq_get h]
  rfl

theorem run_step_const (I : List Nat) (C : List Object) (f : Nat)
    (stack : List Object) (sp ip idx : Nat) (obj : Object)
    (hb : I.get? ip = some 0)
    (hread : read_u16_at I (ip + 1) = .ok idx)
    (hc : C.get? idx = some obj) :
    run_loop I C (f + 1) stack sp ip =
      (vm_push stack sp obj >>= fun s =>
        run_loop I C f s.1 s.2 (ip + 2 + 1)) := by
  have hip : ip < I.length := (List.get?_eq_some.mp hb).1
  have hbyte : I[ip] = 0 := by
    have h2 := (List.get?_eq_some.mp hb).2
    simpa [List.get_eq_getElem] using h2
  rw [run_loop, dif_pos hip, hbyte]
  show (read_u16_at I (ip + 1) >>= _) = _
  rw [hread, ok_bind]
  show (match C.get? idx with | none => _ | some obj => _) = _
  rw [hc]

theorem run_step_pop (I : List Nat) (C : List Object) (f : Nat)
    (stack : List Object) (sp ip sp1 : Nat) (x : Object)
    (hb : I.get? ip = some 1)
    (hpop : vm_pop stack sp = .ok (sp1, x)) :
    run_loop I C (f + 1) stack sp ip = run_loop I C f stack sp1 (ip + 1) := by
  have hip : ip < I.length := (List.get?_eq_some.mp hb).1
  have hbyte : I[ip] = 1 := by
    have h2 := (List.get?_eq_some.mp hb).2
    simpa [List.get_eq_getElem] using h2
  rw [run_loop, dif_pos hip, hbyte]
  show (vm_pop stack sp >>= _) = _
  rw [hpop, ok_bind]

theorem run_step_true (I : List Nat) (C : List Object) (f : Nat)
    (stack : List Object) (sp ip : Nat) (hb : I.get? ip = some 6) :
    run_loop I C (f + 1) stack sp ip =
      (vm_push stack sp (.boolean true) >>= fun s =>
        run_loop I C f s.1 s.2 (ip + 1)) := by
  have hip : ip < I.length := (List.get?_eq_some.mp hb).1
  have hbyte : I[ip] = 6 := by
    have h2 := (List.get?_eq_some.mp hb).2
    simpa [List.get_eq_getElem] using h2
  rw [run_loop, dif_pos hip, hbyte]
  rfl

theorem run_step_false (I : List Nat) (C : List Object) (f : Nat)
    (stack : List Object) (sp ip : Nat) (hb : I.get? ip = some 7) :
    run_loop I C (f + 1) stack sp ip =
      (vm_push stack sp (.boolean false) >>= fun s =>
        run_loop I C f s.1 s.2 (ip + 1)) := by
  have hip : ip < I.length := (List.get?_eq_some.mp hb).1
  have hbyte : I[ip] = 7 := by
    have h2 := (List.get?_eq_some.mp hb).2
    simpa [List.get_eq_getElem] using h2
  rw [run_loop, dif_pos hip, hbyte]
  rfl

theorem run_step_binary (I : List Nat) (C : List Object) (f : Nat)
    (stack : List Object) (sp ip b : Nat) (op : OpCodeType)
    (hb : I.get? ip = some b) (hop : byteToOp b = .ok op)
    (hshape : op = .add ∨ op = .sub ∨ op = .mul ∨ op = .div) :
    run_loop I C (f + 1) stack sp ip =
      (execute_binary_operation stack sp op >>= fun s =>
        run_loop I C f s.1 s.2 (ip + 1)) := by
  have hip : ip < I.length := (List.get?_eq_some.mp hb).1
  have hbyte : I[ip] = b := by
    have h2 := (List.get?_eq_some.mp hb).2
    simpa [List.get_eq_getElem] using h2
  rw [run_loop, dif_pos hip, hbyte, hop]
  rcases hshape with rfl | rfl | rfl | rfl <;> rfl

theorem run_step_comparison (I : List Nat) (C : List Object) (f : Nat)
    (stack : List Object) (sp ip b : Nat) (op : OpCodeType)
    (hb : I.get? ip = some b) (hop : byteToOp b = .ok op)
    (hshape : op = .equal ∨ op = .notEqual ∨ op = .greaterThan) :
    run_loop I C (f + 1) stack sp ip =
      (execute_comparison stack sp op >>= fun s =>
        run_loop I C f s.1 s.2 (ip + 1)) := by
  have hip : ip < I.length := (List.get?_eq_some.mp hb).1
  have hbyte : I[ip] = b := by
    have h2 := (List.get?_eq_some.mp hb).2
    simpa [List.get_eq_getElem] using h2
  rw [run_loop, dif_pos hip, hbyte, hop]
  rcases hshape with rfl | rfl | rfl <;> rfl

/-- The value the VM's `Bang` handler pushes for a popped value. -/
def bangResult : Object → Object
  | .boolean b => .boolean (!b)
  | _ => .boolean false

theorem run_step_bang (I : List Nat) (C : List Object) (f : Nat)
    (stack : List Object) (sp ip sp1 : Nat) (popped : Object)
    (hb : I.get? ip = some 12)
    (hpop : vm_pop stack sp = .ok (sp1, popped)) :
    run_loop I C (f + 1) stack sp ip =
      (vm_push stack sp1 (bangResult popped) >>= fun s =>
        run_loop I C f s.1 s.2 (ip + 1)) := by
  have hip : ip < I.length := (List.get?_eq_some.mp hb).1
  have hbyte : I[ip] = 12 := by
    have h2 := (List.get?_eq_some.mp hb).2
    simpa [List.get_eq_getElem] using h2
  rw [run_loop, dif_pos hip, hbyte]
  show (vm_pop stack sp >>= _) = _
  rw [hpop, ok_bind]
  cases popped <;> rfl

theorem run_step_minus_int (I : List Nat) (C : List Object) (f : Nat)
    (stack : List Object) (sp ip sp1 : Nat) (n : Int)
    (hb : I.get? ip = some 11)
    (hpop : vm_pop stack sp = .ok (sp1, .integer n)) :
    run_loop I C (f + 1) stack sp ip =
      (vm_push stack sp1 (.integer (-n)) >>= fun s =>
        run_loop I C f s.1 s.2 (ip + 1)) := by
  have hip : ip < I.length := (List.get?_eq_some.mp hb).1
  have hbyte : I[ip] = 11 := by
    have h2 := (List.get?_eq_some.mp hb).2
    simpa [List.get_eq_getElem] using h2
  rw [run_loop, dif_pos hip, hbyte]
  show (vm_pop stack sp >>= _) = _
  rw [hpop, ok_bind]

/-! ## Binary and comparison handlers on a prepared stack -/

theorem ebo_add (stack : List Object) (sp : Nat) (l r : Int)
    (hmod : sp + 2 < USIZE_MOD)
    (hr : stack.get? (sp + 1) = some (.integer r))
    (hl : stack.get? sp = some (.integer l)) :
    execute_binary_operation stack (sp + 2) .add =
      vm_push stack sp (.integer (l + r)) := by
  unfold execute_binary_operation
  rw [vm_pop_ok stack (sp + 2) _ (by omega) hmod
    (by rw [show sp + 2 - 1 = sp + 1 from by omega]; exact hr), ok_bind]
  dsimp only
  rw [show sp + 2 - 1 = sp + 1 from by omega]
  rw [vm_pop_ok stack (sp + 1) _ (by omega) (by omega)
    (by rw [show sp + 1 - 1 = sp from by omega]; exact hl), ok_bind]
  dsimp only
  rw [show sp + 1 - 1 = sp from by omega]

theorem ebo_sub (stack : List Object) (sp : Nat) (l r : Int)
    (hmod : sp + 2 < USIZE_MOD)
    (hr : stack.get? (sp + 1) = some (.integer r))
    (hl : stack.get? sp = some (.integer l)) :
    execute_binary_operation stack (sp + 2) .sub =
      vm_push stack sp (.integer (l - r)) := by
  unfold execute_binary_operation
  rw [vm_pop_ok stack (sp + 2) _ (by omega) hmod
    (by rw [show sp + 2 - 1 = sp + 1 from by omega]; exact hr), ok_bind]
  dsimp only
  rw [show sp + 2 - 1 = sp + 1 from by omega]
  rw [vm_pop_ok stack (sp + 1) _ (by omega) (by omega)
    (by rw [show sp + 1 - 1 = sp from by omega]; exact hl), ok_bind]
  dsimp only
  rw [show sp + 1 - 1 = sp from by omega]

theorem ebo_mul (stack : List Object) (sp : Nat) (l r : Int)
    (hmod : sp + 2 < USIZE_MOD)
    (hr : stack.get? (sp + 1) = some (.integer r))
    (hl : stack.get? sp = some (.integer l)) :
    execute_binary_operation stack (sp + 2) .mul =
      vm_push stack sp (.integer (l * r)) := by
  unfold execute_binary_operation
  rw [vm_pop_ok stack (sp + 2) _ (by omega) hmod
    (by rw [show sp + 2 - 1 = sp + 1 from by omega]; exact hr), ok_bind]
  dsimp only
  rw [show sp + 2 - 1 = sp + 1 from by omega]
  rw [vm_pop_ok stack (sp + 1) _ (by omega) (by omega)
    (by rw [show sp + 1 - 1 = sp from by omega]; exact hl), ok_bind]
  dsimp only
  rw [show sp + 1 - 1 = sp from by omega]

theorem ebo_div (stack : List Object) (sp : Nat) (l r : Int)
    (hmod : sp + 2 < USIZE_MOD)
    (hc : ¬(r = 0 ∨ (l = -(2 ^ 63) ∧ r = -1)))
    (hr : stack.get? (sp + 1) = some (.integer r))
    (hl : stack.get? sp = some (.integer l)) :
    execute_binary_operation stack (sp + 2) .div =
      vm_push stack sp (.integer (Int.tdiv l r)) := by
  unfold execute_binary_operation
  rw [vm_pop_ok stack (sp + 2) _ (by omega) hmod
    (by rw [show sp + 2 - 1 = sp + 1 from by omega]; exact hr), ok_bind]
  dsimp only
  rw [show sp + 2 - 1 = sp + 1 from by omega]
  rw [vm_pop_ok stack (sp + 1) _ (by omega) (by omega)
    (by rw [show sp + 1 - 1 = sp from by omega]; exact hl), ok_bind]
  dsimp only
  rw [if_neg hc]
  rw [show sp + 1 - 1 = sp from by omega]

/-- The two panic paths of the VM `Div` handler: a zero divisor, or the
overflowing `i64::MIN / -1`. -/
theorem ebo_div_panics (stack : List Object) (sp : Nat) (l r : Int)
    (hmod : sp + 2 < USIZE_MOD)
    (hc : r = 0 ∨ (l = -(2 ^ 63) ∧ r = -1))
    (hr : stack.get? (sp + 1) = some (.integer r))
    (hl : stack.get? sp = some (.integer l)) :
    execute_binary_operation stack (sp + 2) .div = .error .panics := by
  unfold execute_binary_operation
  rw [vm_pop_ok stack (sp + 2) _ (by omega) hmod
    (by rw [show sp + 2 - 1 = sp + 1 from by omega]; exact hr), ok_bind]
  dsimp only
  rw [show sp + 2 - 1 = sp + 1 from by omega]
  rw [vm_pop_ok stack (sp + 1) _ (by omega) (by omega)
    (by rw [show sp + 1 - 1 = sp from by omega]; exact hl), ok_bind]
  dsimp only
  rw [if_pos hc]

theorem ecmp_eq_int (stack : List Object) (sp : Nat) (l r : Int)
    (hmod : sp + 2 < USIZE_MOD)
    (hr : stack.get? (sp + 1) = some (.integer r))
    (hl : stack.get? sp = some (.integer l)) :
    execute_comparison stack (sp + 2) .equal =
      vm_push stack sp (.boolean (l = r)) := by
  unfold execute_comparison
  rw [vm_pop_ok stack (sp + 2) _ (by omega) hmod
    (by rw [show sp + 2 - 1 = sp + 1 from by omega]; exact hr), ok_bind]
  dsimp only
  rw [show sp + 2 - 1 = sp + 1 from by omega]
  rw [vm_pop_ok stack (sp + 1) _ (by omega) (by omega)
    (by rw [show sp + 1 - 1 = sp from by omega]; exact hl), ok_bind]
  dsimp only
  rw [show sp + 1 - 1 = sp from by omega]

theorem ecmp_ne_int (stack : List Object) (sp : Nat) (l r : Int)
    (hmod : sp + 2 < USIZE_MOD)
    (hr : stack.get? (sp + 1) = some (.integer r))
    (hl : stack.get? sp = some (.integer l)) :
    execute_comparison stack (sp + 2) .notEqual =
      vm_push stack sp (.boolean (¬ (l = r))) := by
  unfold execute_comparison
  rw [vm_pop_ok stack (sp + 2) _ (by omega) hmod
    (by rw [show sp + 2 - 1 = sp + 1 from by omega]; exact hr), ok_bind]
  dsimp only
  rw [show sp + 2 - 1 = sp + 1 from by omega]
  rw [vm_pop_ok stack (sp + 1) _ (by omega) (by omega)
    (by rw [show sp + 1 - 1 = sp from by omega]; exact hl), ok_bind]
  dsimp only
  rw [show sp + 1 - 1 = sp from by omega]

theorem ecmp_gt_int (stack : List Object) (sp : Nat) (l r : Int)
    (hmod : sp + 2 < USIZE_MOD)
    (hr : stack.get? (sp + 1) = some (.integer r))
    (hl : stack.get? sp = some (.integer l)) :
    execute_comparison stack (sp + 2) .greaterThan =
      vm_push stack sp (.boolean (r < l)) := by
  unfold execute_comparison
  rw [vm_pop_ok stack (sp + 2) _ (by omega) hmod
    (by rw [show sp + 2 - 1 = sp + 1 from by omega]; exact hr), ok_bind]
  dsimp only
  rw [show sp + 2 - 1 = sp + 1 from by omega]
  rw [vm_pop_ok stack (sp + 1) _ (by omega) (by omega)
    (by rw [show sp + 1 - 1 = sp from by omega]; exact hl), ok_bind]
  dsimp only
  rw [show sp + 1 - 1 = sp from by omega]

theorem ecmp_eq_bool (stack : List Object) (sp : Nat) (l r : Bool)
    (hmod : sp + 2 < USIZE_MOD)
    (hr : stack.get? (sp + 1) = some (.boolean r))
    (hl : stack.get? sp = some (.boolean l)) :
    execute_comparison stack (sp + 2) .equal =
      vm_push stack sp (.boolean (l = r)) := by
  unfold execute_comparison
  rw [vm_pop_ok stack (sp + 2) _ (by omega) hmod
    (by rw [show sp + 2 - 1 = sp + 1 from by omega]; exact hr), ok_bind]
  dsimp only
  rw [show sp + 2 - 1 = sp + 1 from by omega]
  rw [vm_pop_ok stack (sp + 1) _ (by omega) (by omega)
    (by rw [show sp + 1 - 1 = sp from by omega]; exact hl), ok_bind]
  dsimp only
  rw [show sp + 1 - 1 = sp from by omega]

theorem ecmp_ne_bool (stack : List Object) (sp : Nat) (l r : Bool)
    (hmod : sp + 2 < USIZE_MOD)
    (hr : stack.get? (sp + 1) = some (.boolean r))
    (hl : stack.get? sp = some (.boolean l)) :
    execute_comparison stack (sp + 2) .notEqual =
      vm_push stack sp (.boolean (¬ (l = r))) := by
  unfold execute_comparison
  rw [vm_pop_ok stack (sp + 2) _ (by omega) hmod
    (by rw [show sp + 2 - 1 = sp + 1 from by omega]; exact hr), ok_bind]
  dsimp only
  rw [show sp + 2 - 1 = sp + 1 from by omega]
  rw [vm_pop_ok stack (sp + 1) _ (by omega) (by omega)
    (by rw [show sp + 1 - 1 = sp from by omega]; exact hl), ok_bind]
  dsimp only
  rw [show sp + 1 - 1 = sp from by omega]

/-- A flat expression only ever evaluates to an `Integer` or a `Boolean`
(in particular never to `Null`, on which the evaluator's and the VM's
`Bang` rules disagree). -/
theorem evalExpr_flat_shape (e : Expression) (he : FlatE e) (v : Object)
    (hv : evalExpr e = .ok v) :
    (∃ n, v = .integer n) ∨ (∃ b, v = .boolean b) := by
  cases he with
  | int n => cases hv; exact Or.inl ⟨n, rfl⟩
  | bool b => cases hv; exact Or.inr ⟨b, rfl⟩
  | bang r hr =>
    rw [evalExpr] at hv
    obtain ⟨vr, hvr, hv⟩ := except_bind_ok hv
    simp only [eval_prefix_expression] at hv
    cases vr <;> (cases hv; exact Or.inr ⟨_, rfl⟩)
  | neg r hr =>
    rw [evalExpr] at hv
    obtain ⟨vr, hvr, hv⟩ := except_bind_ok hv
    simp only [eval_prefix_expression] at hv
    cases vr <;> first
      | (cases hv; exact Or.inl ⟨_, rfl⟩)
      | cases hv
  | inf t a b ht ha hb =>
    rw [evalExpr] at hv
    obtain ⟨va, hva, hv⟩ := except_bind_ok hv
    obtain ⟨vb, hvb, hv⟩ := except_bind_ok hv
    rcases ht with rfl | rfl | rfl | rfl | rfl | rfl | rfl | rfl <;>
      cases va <;> cases vb <;>
      (unfold eval_infix_expression at hv; dsimp only at hv) <;>
      first
        | (cases hv; exact Or.inl ⟨_, rfl⟩)
        | (cases hv; exact Or.inr ⟨_, rfl⟩)
        | cases hv
        | (split at hv
           all_goals first
             | (cases hv; exact Or.inl ⟨_, rfl⟩)
             | cases hv)

/-- The simulation statement for one flat expression: executing its
compiled code from any matching VM state either aborts with the VM's
stack-overflow error, or pushes exactly the value the tree-walking
evaluator computes and continues after the code (consuming one fuel unit
per executed instruction). -/
def ExecGood (e : Expression) : Prop :=
  ∀ (I : List Nat) (C : List Object) (k : Nat) (v : Object)
    (stack : List Object) (sp ip f : Nat),
    evalExpr e = .ok v →
    SegAt I ip (codeE e k) →
    SegAt C k (constsE e) →
    k + (constsE e).length ≤ 65536 →
    stack.length = STACK_SIZE →
    sp ≤ STACK_SIZE →
    instrCount e ≤ f →
    (run_loop I C f stack sp ip = .error (.err "stack overflow") ∨
      ∃ stack', stack'.length = STACK_SIZE ∧
        (∀ m, m < sp → stack'.get? m = stack.get? m) ∧
        stack'.get? sp = some v ∧
        run_loop I C f stack sp ip =
          run_loop I C (f - instrCount e) stack' (sp + 1)
            (ip + (codeE e k).length))

/-- Executing the code of two operands in sequence pushes both their
values (or aborts with the stack-overflow error). -/
theorem exec_operands (x y : Expression) (hgx : ExecGood x)
    (hgy : ExecGood y) (I : List Nat) (C : List Object) (k : Nat)
    (vx vy : Object) (stack : List Object) (sp ip f : Nat)
    (hvx : evalExpr x = .ok vx) (hvy : evalExpr y = .ok vy)
    (hsegx : SegAt I ip (codeE x k))
    (hsegy : SegAt I (ip + (codeE x k).length)
      (codeE y (k + (constsE x).length)))
    (hconx : SegAt C k (constsE x))
    (hcony : SegAt C (k + (constsE x).length) (constsE y))
    (hbound : k + (constsE x).length + (constsE y).length ≤ 65536)
    (hlen : stack.length = STACK_SIZE) (hsp : sp ≤ STACK_SIZE)
    (hf : instrCount x + instrCount y ≤ f) :
    run_loop I C f stack sp ip = .error (.err "stack overflow") ∨
      ∃ stack2, stack2.length = STACK_SIZE ∧
        (∀ m, m < sp → stack2.get? m = stack.get? m) ∧
        stack2.get? sp = some vx ∧ stack2.get? (sp + 1) = some vy ∧
        sp + 1 < STACK_SIZE ∧
        run_loop I C f stack sp ip =
          run_loop I C (f - instrCount x - instrCount y) stack2 (sp + 2)
            (ip + (codeE x k).length +
              (codeE y (k + (constsE x).length)).length) := by
  rcases hgx I C k vx stack sp ip f hvx hsegx hconx (by omega) hlen hsp
      (by omega) with herr | ⟨stack1, hlen1, hpres1, hget1, hrun1⟩
  · exact Or.inl herr
  · rw [hrun1]
    have hsp1 : sp < STACK_SIZE := by
      have h := (List.get?_eq_some.mp hget1).1
      rwa [hlen1] at h
    rcases hgy I C (k + (constsE x).length) vy stack1 (sp + 1)
        (ip + (codeE x k).length) (f - instrCount x) hvy hsegy hcony
        (by omega) hlen1 (by omega) (by omega)
      with herr2 | ⟨stack2, hlen2, hpres2, hget2, hrun2⟩
    · exact Or.inl herr2
    · rw [hrun2]
      have hsp2 : sp + 1 < STACK_SIZE := by
        have h := (List.get?_eq_some.mp hget2).1
        rwa [hlen2] at h
      right
      refine ⟨stack2, hlen2, ?_, ?_, hget2, hsp2, rfl⟩
      · intro m hm
        rw [hpres2 m (by omega)]
        exact hpres1 m hm
      · rw [hpres2 sp (by omega)]
        exact hget1

/-- Compiled code of a flat expression simulates the evaluator
(`ExecGood`), by induction over the flat structure. -/
theorem codeE_exec (e : Expression) (he : FlatE e) : ExecGood e := by
  induction he with
  | int n =>
    intro I C k v stack sp ip f hv hseg hcon hbound hlen hsp hf
    cases hv
    have hcode : codeE (.integerLiteral n) k = [0, k / 256 % 256, k % 256] :=
      rfl
    rw [hcode] at hseg
    have hb0 : I.get? ip = some 0 := by simpa using hseg 0 (by norm_num)
    have hb1 : I.get? (ip + 1) = some (k / 256 % 256) := by
      simpa using hseg 1 (by norm_num)
    have hb2 : I.get? (ip + 2) = some (k % 256) := by
      simpa using hseg 2 (by norm_num)
    have hc : C.get? k = some (.integer n) := by
      simpa [constsE] using hcon 0 (by simp [constsE])
    have hk : k < 65536 := by
      have : (constsE (.integerLiteral n)).length = 1 := rfl
      omega
    have hread : read_u16_at I (ip + 1) = .ok k := by
      have hval : k / 256 % 256 * 256 + k % 256 = k := by
        have hd : k / 256 % 256 = k / 256 := Nat.mod_eq_of_lt (by omega)
        rw [hd]
        omega
      unfold read_u16_at
      rw [show ip + 1 + 1 = ip + 2 from by omega, hb1, hb2]
      dsimp only
      rw [hval]
    obtain ⟨g, hg⟩ : ∃ g, f = g + 1 := ⟨f - 1, by
      have : instrCount (.integerLiteral n) = 1 := rfl
      omega⟩
    subst hg
    rw [run_step_const I C g stack sp ip k _ hb0 hread hc]
    by_cases hov : sp < STACK_SIZE
    · rw [vm_push_ok _ _ _ hov, ok_bind]
      right
      refine ⟨stack.set sp (.integer n), by simp [hlen], ?_, ?_, ?_⟩
      · intro m hm
        exact List.get?_set_ne _ _ (by omega)
      · exact get?_set_self _ _ _ (by omega)
      · dsimp only
        rw [hcode,
          show g + 1 - instrCount (.integerLiteral n) = g from by
            simp [instrCount],
          show ip + ([0, k / 256 % 256, k % 256] : List Nat).length =
            ip + 2 + 1 from by simp]
    · rw [vm_push_err _ _ _ (by omega), err_bind]
      exact Or.inl rfl
  | bool b =>
    intro I C k v stack sp ip f hv hseg hcon hbound hlen hsp hf
    cases hv
    obtain ⟨g, hg⟩ : ∃ g, f = g + 1 := ⟨f - 1, by
      have : instrCount (.boolean b) = 1 := rfl
      omega⟩
    subst hg
    cases b
    · have hcode : codeE (.boolean false) k = [7] := rfl
      rw [hcode] at hseg
      have hb : I.get? ip = some 7 := by simpa using hseg 0 (by norm_num)
      rw [run_step_false I C g stack sp ip hb]
      by_cases hov : sp < STACK_SIZE
      · rw [vm_push_ok _ _ _ hov, ok_bind]
        right
        refine ⟨stack.set sp (.boolean false), by simp [hlen], ?_, ?_, ?_⟩
        · intro m hm
          exact List.get?_set_ne _ _ (by omega)
        · exact get?_set_self _ _ _ (by omega)
        · dsimp only
          rw [hcode,
            show g + 1 - instrCount (.boolean false) = g from by
              simp [instrCount],
            show ip + ([7] : List Nat).length = ip + 1 from by simp]
      · rw [vm_push_err _ _ _ (by omega), err_bind]
        exact Or.inl rfl
    · have hcode : codeE (.boolean true) k = [6] := rfl
      rw [hcode] at hseg
      have hb : I.get? ip = some 6 := by simpa using hseg 0 (by norm_num)
      rw [run_step_true I C g stack sp ip hb]
      by_cases hov : sp < STACK_SIZE
      · rw [vm_push_ok _ _ _ hov, ok_bind]
        right
        refine ⟨stack.set sp (.boolean true), by simp [hlen], ?_, ?_, ?_⟩
        · intro m hm
          exact List.get?_set_ne _ _ (by omega)
        · exact get?_set_self _ _ _ (by omega)
        · dsimp only
          rw [hcode,
            show g + 1 - instrCount (.boolean true) = g from by
              simp [instrCount],
            show ip + ([6] : List Nat).length = ip + 1 from by simp]
      · rw [vm_push_err _ _ _ (by omega), err_bind]
        exact Or.inl rfl
  | bang r hr ih =>
    intro I C k v stack sp ip f hv hseg hcon hbound hlen hsp hf
    rw [evalExpr] at hv
    obtain ⟨vr, hvr, hv2⟩ := except_bind_ok hv
    have hcode : codeE (.prefixExpr .bang r) k = codeE r k ++ [12] := rfl
    rw [hcode, segAt_append] at hseg
    obtain ⟨hseg1, hseg2⟩ := hseg
    have hb12 : I.get? (ip + (codeE r k).length) = some 12 :=
      segAt_single.mp hseg2
    have hfr : instrCount r ≤ f := by
      have : instrCount (.prefixExpr .bang r) = instrCount r + 1 := rfl
      omega
    rcases ih I C k vr stack sp ip f hvr hseg1 hcon hbound hlen hsp hfr with
      herr | ⟨stack1, hlen1, hpres1, hget1, hrun1⟩
    · exact Or.inl herr
    · rw [hrun1]
      obtain ⟨g, hg⟩ : ∃ g, f - instrCount r = g + 1 :=
        ⟨f - instrCount r - 1, by
          have : instrCount (.prefixExpr .bang r) = instrCount r + 1 := rfl
          omega⟩
      rw [hg]
      have hsp1 : sp < STACK_SIZE := by
        have h := (List.get?_eq_some.mp hget1).1
        rwa [hlen1] at h
      have hpop : vm_pop stack1 (sp + 1) = .ok (sp, vr) := by
        apply vm_pop_ok stack1 (sp + 1) vr (by omega)
          (by unfold STACK_SIZE USIZE_MOD at *; omega)
        simpa using hget1
      rw [run_step_bang I C g stack1 (sp + 1) _ sp vr hb12 hpop]
      have hvval : bangResult vr = v := by
        rcases evalExpr_flat_shape r hr vr hvr with ⟨m, rfl⟩ | ⟨bb, rfl⟩ <;>
          (simp only [eval_prefix_expression] at hv2; cases hv2; rfl)
      rw [hvval, vm_push_ok _ _ _ hsp1, ok_bind]
      right
      refine ⟨stack1.set sp v, by simp [hlen1], ?_, ?_, ?_⟩
      · intro m hm
        rw [List.get?_set_ne _ _ (by omega)]
        exact hpres1 m hm
      · exact get?_set_self _ _ _ (by omega)
      · dsimp only
        rw [show f - instrCount (.prefixExpr .bang r) = g from by
          have h2 : instrCount (.prefixExpr .bang r) = instrCount r + 1 := rfl
          omega]
        rw [hcode]
        have hlenB : (codeE r k ++ [12]).length = (codeE r k).length + 1 := by
          simp
        rw [hlenB, ← Nat.add_assoc]
  | neg r hr ih =>
    intro I C k v stack sp ip f hv hseg hcon hbound hlen hsp hf
    rw [evalExpr] at hv
    obtain ⟨vr, hvr, hv2⟩ := except_bind_ok hv
    obtain ⟨m, rfl⟩ : ∃ m, vr = .integer m := by
      rcases evalExpr_flat_shape r hr vr hvr with ⟨m, rfl⟩ | ⟨bb, rfl⟩
      · exact ⟨m, rfl⟩
      · simp only [eval_prefix_expression] at hv2
        cases hv2
    have hvv : v = .integer (-m) := by
      simp only [eval_prefix_expression] at hv2
      cases hv2
      rfl
    subst hvv
    have hcode : codeE (.prefixExpr .minus r) k = codeE r k ++ [11] := rfl
    rw [hcode, segAt_append] at hseg
    obtain ⟨hseg1, hseg2⟩ := hseg
    have hb11 : I.get? (ip + (codeE r k).length) = some 11 :=
      segAt_single.mp hseg2
    have hfr : instrCount r ≤ f := by
      have : instrCount (.prefixExpr .minus r) = instrCount r + 1 := rfl
      omega
    rcases ih I C k (.integer m) stack sp ip f hvr hseg1 hcon hbound hlen hsp
      hfr with herr | ⟨stack1, hlen1, hpres1, hget1, hrun1⟩
    · exact Or.inl herr
    · rw [hrun1]
      obtain ⟨g, hg⟩ : ∃ g, f - instrCount r = g + 1 :=
        ⟨f - instrCount r - 1, by
          have : instrCount (.prefixExpr .minus r) = instrCount r + 1 := rfl
          omega⟩
      rw [hg]
      have hsp1 : sp < STACK_SIZE := by
        have h := (List.get?_eq_some.mp hget1).1
        rwa [hlen1] at h
      have hpop : vm_pop stack1 (sp + 1) = .ok (sp, .integer m) := by
        apply vm_pop_ok stack1 (sp + 1) _ (by omega)
          (by unfold STACK_SIZE USIZE_MOD at *; omega)
        simpa using hget1
      rw [run_step_minus_int I C g stack1 (sp + 1) _ sp m hb11 hpop]
      rw [vm_push_ok _ _ _ hsp1, ok_bind]
      right
      refine ⟨stack1.set sp (.integer (-m)), by simp [hlen1], ?_, ?_, ?_⟩
      · intro m2 hm
        rw [List.get?_set_ne _ _ (by omega)]
        exact hpres1 m2 hm
      · exact get?_set_self _ _ _ (by omega)
      · dsimp only
        rw [show f - instrCount (.prefixExpr .minus r) = g from by
          have h2 : instrCount (.prefixExpr .minus r) = instrCount r + 1 := rfl
          omega]
        rw [hcode]
        have hlenB : (codeE r k ++ [11]).length = (codeE r k).length + 1 := by
          simp
        rw [hlenB, ← Nat.add_assoc]
  | inf t x y ht hx hy ihx ihy =>
    intro I C k v stack sp ip f hv hseg hcon hbound hlen hsp hf
    rw [evalExpr] at hv
    obtain ⟨va, hva, hv⟩ := except_bind_ok hv
    obtain ⟨vb, hvb, hv2⟩ := except_bind_ok hv
    have hfc : instrCount (.infixExpr t x y) =
        instrCount x + instrCount y + 1 := rfl
    rcases ht with rfl | rfl | rfl | rfl | rfl | rfl | rfl | rfl
    ·
      obtain ⟨m, rfl⟩ : ∃ m, va = .integer m := by
        rcases evalExpr_flat_shape x hx va hva with ⟨m, rfl⟩ | ⟨bx, rfl⟩
        · exact ⟨_, rfl⟩
        · rcases evalExpr_flat_shape y hy vb hvb with ⟨n, rfl⟩ | ⟨by2, rfl⟩ <;>
            (unfold eval_infix_expression at hv2; cases hv2)
      obtain ⟨n, rfl⟩ : ∃ n, vb = .integer n := by
        rcases evalExpr_flat_shape y hy vb hvb with ⟨n, rfl⟩ | ⟨by2, rfl⟩
        · exact ⟨_, rfl⟩
        · unfold eval_infix_expression at hv2
          cases hv2
      unfold eval_infix_expression at hv2
      cases hv2
      have hcode : codeE (.infixExpr .plus x y) k =
          (codeE x k ++ codeE y (k + (constsE x).length)) ++ [2] :=
        rfl
      have hcons : constsE (.infixExpr .plus x y) =
          constsE x ++ constsE y := rfl
      rw [hcode, segAt_append, segAt_append] at hseg
      obtain ⟨⟨hsegx2, hsegy2⟩, hsegop⟩ := hseg
      rw [hcons, segAt_append] at hcon
      obtain ⟨hconx2, hcony2⟩ := hcon
      have hboundxy : k + (constsE x).length + (constsE y).length ≤ 65536 := by
        rw [hcons] at hbound
        simp only [List.length_append] at hbound
        omega
      rcases exec_operands x y ihx ihy I C k (Object.integer m) (Object.integer n) stack sp ip f
          hva hvb hsegx2 hsegy2 hconx2 hcony2 hboundxy hlen hsp
          (by rw [hfc] at hf; omega)
        with herr | ⟨stack2, hlen2, hpres2, hgx2, hgy2, hsp2, hrun⟩
      · exact Or.inl herr
      · rw [hrun]
        obtain ⟨g, hg⟩ : ∃ g, f - instrCount x - instrCount y = g + 1 :=
          ⟨f - instrCount x - instrCount y - 1, by rw [hfc] at hf; omega⟩
        rw [hg]
        have hop : I.get? (ip + (codeE x k).length +
            (codeE y (k + (constsE x).length)).length) = some 2 := by
          have h2 := segAt_single.mp hsegop
          simp only [List.length_append] at h2
          rwa [← Nat.add_assoc] at h2
        rw [run_step_binary I C g stack2 (sp + 2) _ 2 _ hop rfl (Or.inl rfl)]
        rw [ebo_add stack2 sp m n (by unfold STACK_SIZE USIZE_MOD at *; omega) hgy2 hgx2]
        rw [vm_push_ok _ _ _ (by omega), ok_bind]
        right
        refine ⟨stack2.set sp (.integer (m + n)), by simp [hlen2], ?_, ?_, ?_⟩
        · intro m2 hm
          rw [List.get?_set_ne _ _ (by omega)]
          exact hpres2 m2 hm
        · exact get?_set_self _ _ _ (by omega)
        · dsimp only
          rw [show f - instrCount (.infixExpr .plus x y) = g from by
            rw [hfc]; omega]
          exact congrArg
            (run_loop I C g (stack2.set sp (.integer (m + n))) (sp + 1))
            (by
              rw [hcode]
              simp only [List.length_append, List.length_cons,
                List.length_nil]
              omega)
    ·
      obtain ⟨m, rfl⟩ : ∃ m, va = .integer m := by
        rcases evalExpr_flat_shape x hx va hva with ⟨m, rfl⟩ | ⟨bx, rfl⟩
        · exact ⟨_, rfl⟩
        · rcases evalExpr_flat_shape y hy vb hvb with ⟨n, rfl⟩ | ⟨by2, rfl⟩ <;>
            (unfold eval_infix_expression at hv2; cases hv2)
      obtain ⟨n, rfl⟩ : ∃ n, vb = .integer n := by
        rcases evalExpr_flat_shape y hy vb hvb with ⟨n, rfl⟩ | ⟨by2, rfl⟩
        · exact ⟨_, rfl⟩
        · unfold eval_infix_expression at hv2
          cases hv2
      unfold eval_infix_expression at hv2
      cases hv2
      have hcode : codeE (.infixExpr .minus x y) k =
          (codeE x k ++ codeE y (k + (constsE x).length)) ++ [3] :=
        rfl
      have hcons : constsE (.infixExpr .minus x y) =
          constsE x ++ constsE y := rfl
      rw [hcode, segAt_append, segAt_append] at hseg
      obtain ⟨⟨hsegx2, hsegy2⟩, hsegop⟩ := hseg
      rw [hcons, segAt_append] at hcon
      obtain ⟨hconx2, hcony2⟩ := hcon
      have hboundxy : k + (constsE x).length + (constsE y).length ≤ 65536 := by
        rw [hcons] at hbound
        simp only [List.length_append] at hbound
        omega
      rcases exec_operands x y ihx ihy I C k (Object.integer m) (Object.integer n) stack sp ip f
          hva hvb hsegx2 hsegy2 hconx2 hcony2 hboundxy hlen hsp
          (by rw [hfc] at hf; omega)
        with herr | ⟨stack2, hlen2, hpres2, hgx2, hgy2, hsp2, hrun⟩
      · exact Or.inl herr
      · rw [hrun]
        obtain ⟨g, hg⟩ : ∃ g, f - instrCount x - instrCount y = g + 1 :=
          ⟨f - instrCount x - instrCount y - 1, by rw [hfc] at hf; omega⟩
        rw [hg]
        have hop : I.get? (ip + (codeE x k).length +
            (codeE y (k + (constsE x).length)).length) = some 3 := by
          have h2 := segAt_single.mp hsegop
          simp only [List.length_append] at h2
          rwa [← Nat.add_assoc] at h2
        rw [run_step_binary I C g stack2 (sp + 2) _ 3 _ hop rfl (Or.inr (Or.inl rfl))]
        rw [ebo_sub stack2 sp m n (by unfold STACK_SIZE USIZE_MOD at *; omega) hgy2 hgx2]
        rw [vm_push_ok _ _ _ (by omega), ok_bind]
        right
        refine ⟨stack2.set sp (.integer (m - n)), by simp [hlen2], ?_, ?_, ?_⟩
        · intro m2 hm
          rw [List.get?_set_ne _ _ (by omega)]
          exact hpres2 m2 hm
        · exact get?_set_self _ _ _ (by omega)
        · dsimp only
          rw [show f - instrCount (.infixExpr .minus x y) = g from by
            rw [hfc]; omega]
          exact congrArg
            (run_loop I C g (stack2.set sp (.integer (m - n))) (sp + 1))
            (by
              rw [hcode]
              simp only [List.length_append, List.length_cons,
                List.length_nil]
              omega)
    ·
      obtain ⟨m, rfl⟩ : ∃ m, va = .integer m := by
        rcases evalExpr_flat_shape x hx va hva with ⟨m, rfl⟩ | ⟨bx, rfl⟩
        · exact ⟨_, rfl⟩
        · rcases evalExpr_flat_shape y hy vb hvb with ⟨n, rfl⟩ | ⟨by2, rfl⟩ <;>
            (unfold eval_infix_expression at hv2; cases hv2)
      obtain ⟨n, rfl⟩ : ∃ n, vb = .integer n := by
        rcases evalExpr_flat_shape y hy vb hvb with ⟨n, rfl⟩ | ⟨by2, rfl⟩
        · exact ⟨_, rfl⟩
        · unfold eval_infix_expression at hv2
          cases hv2
      unfold eval_infix_expression at hv2
      cases hv2
      have hcode : codeE (.infixExpr .asterisk x y) k =
          (codeE x k ++ codeE y (k + (constsE x).length)) ++ [4] :=
        rfl
      have hcons : constsE (.infixExpr .asterisk x y) =
          constsE x ++ constsE y := rfl
      rw [hcode, segAt_append, segAt_append] at hseg
      obtain ⟨⟨hsegx2, hsegy2⟩, hsegop⟩ := hseg
      rw [hcons, segAt_append] at hcon
      obtain ⟨hconx2, hcony2⟩ := hcon
      have hboundxy : k + (constsE x).length + (constsE y).length ≤ 65536 := by
        rw [hcons] at hbound
        simp only [List.length_append] at hbound
        omega
      rcases exec_operands x y ihx ihy I C k (Object.integer m) (Object.integer n) stack sp ip f
          hva hvb hsegx2 hsegy2 hconx2 hcony2 hboundxy hlen hsp
          (by rw [hfc] at hf; omega)
        with herr | ⟨stack2, hlen2, hpres2, hgx2, hgy2, hsp2, hrun⟩
      · exact Or.inl herr
      · rw [hrun]
        obtain ⟨g, hg⟩ : ∃ g, f - instrCount x - instrCount y = g + 1 :=
          ⟨f - instrCount x - instrCount y - 1, by rw [hfc] at hf; omega⟩
        rw [hg]
        have hop : I.get? (ip + (codeE x k).length +
            (codeE y (k + (constsE x).length)).length) = some 4 := by
          have h2 := segAt_single.mp hsegop
          simp only [List.length_append] at h2
          rwa [← Nat.add_assoc] at h2
        rw [run_step_binary I C g stack2 (sp + 2) _ 4 _ hop rfl (Or.inr (Or.inr (Or.inl rfl)))]
        rw [ebo_mul stack2 sp m n (by unfold STACK_SIZE USIZE_MOD at *; omega) hgy2 hgx2]
        rw [vm_push_ok _ _ _ (by omega), ok_bind]
        right
        refine ⟨stack2.set sp (.integer (m * n)), by simp [hlen2], ?_, ?_, ?_⟩
        · intro m2 hm
          rw [List.get?_set_ne _ _ (by omega)]
          exact hpres2 m2 hm
        · exact get?_set_self _ _ _ (by omega)
        · dsimp only
          rw [show f - instrCount (.infixExpr .asterisk x y) = g from by
            rw [hfc]; omega]
          exact congrArg
            (run_loop I C g (stack2.set sp (.integer (m * n))) (sp + 1))
            (by
              rw [hcode]
              simp only [List.length_append, List.length_cons,
                List.length_nil]
              omega)
    ·
      obtain ⟨m, rfl⟩ : ∃ m, va = .integer m := by
        rcases evalExpr_flat_shape x hx va hva with ⟨m, rfl⟩ | ⟨bx, rfl⟩
        · exact ⟨_, rfl⟩
        · rcases evalExpr_flat_shape y hy vb hvb with ⟨n, rfl⟩ | ⟨by2, rfl⟩ <;>
            (unfold eval_infix_expression at hv2; cases hv2)
      obtain ⟨n, rfl⟩ : ∃ n, vb = .integer n := by
        rcases evalExpr_flat_shape y hy vb hvb with ⟨n, rfl⟩ | ⟨by2, rfl⟩
        · exact ⟨_, rfl⟩
        · unfold eval_infix_expression at hv2
          cases hv2
      have hz : ¬ (n = 0 ∨ (m = -(2 ^ 63) ∧ n = -1)) := by
        intro hz0
        unfold eval_infix_expression at hv2
        dsimp only at hv2
        rw [if_pos hz0] at hv2
        cases hv2
      unfold eval_infix_expression at hv2
      dsimp only at hv2
      rw [if_neg hz] at hv2
      cases hv2
      have hcode : codeE (.infixExpr .slash x y) k =
          (codeE x k ++ codeE y (k + (constsE x).length)) ++ [5] :=
        rfl
      have hcons : constsE (.infixExpr .slash x y) =
          constsE x ++ constsE y := rfl
      rw [hcode, segAt_append, segAt_append] at hseg
      obtain ⟨⟨hsegx2, hsegy2⟩, hsegop⟩ := hseg
      rw [hcons, segAt_append] at hcon
      obtain ⟨hconx2, hcony2⟩ := hcon
      have hboundxy : k + (constsE x).length + (constsE y).length ≤ 65536 := by
        rw [hcons] at hbound
        simp only [List.length_append] at hbound
        omega
      rcases exec_operands x y ihx ihy I C k (Object.integer m) (Object.integer n) stack sp ip f
          hva hvb hsegx2 hsegy2 hconx2 hcony2 hboundxy hlen hsp
          (by rw [hfc] at hf; omega)
        with herr | ⟨stack2, hlen2, hpres2, hgx2, hgy2, hsp2, hrun⟩
      · exact Or.inl herr
      · rw [hrun]
        obtain ⟨g, hg⟩ : ∃ g, f - instrCount x - instrCount y = g + 1 :=
          ⟨f - instrCount x - instrCount y - 1, by rw [hfc] at hf; omega⟩
        rw [hg]
        have hop : I.get? (ip + (codeE x k).length +
            (codeE y (k + (constsE x).length)).length) = some 5 := by
          have h2 := segAt_single.mp hsegop
          simp only [List.length_append] at h2
          rwa [← Nat.add_assoc] at h2
        rw [run_step_binary I C g stack2 (sp + 2) _ 5 _ hop rfl (Or.inr (Or.inr (Or.inr rfl)))]
        rw [ebo_div stack2 sp m n (by unfold STACK_SIZE USIZE_MOD at *; omega) hz hgy2 hgx2]
        rw [vm_push_ok _ _ _ (by omega), ok_bind]
        right
        refine ⟨stack2.set sp (.integer (Int.tdiv m n)), by simp [hlen2], ?_, ?_, ?_⟩
        · intro m2 hm
          rw [List.get?_set_ne _ _ (by omega)]
          exact hpres2 m2 hm
        · exact get?_set_self _ _ _ (by omega)
        · dsimp only
          rw [show f - instrCount (.infixExpr .slash x y) = g from by
            rw [hfc]; omega]
          exact congrArg
            (run_loop I C g (stack2.set sp (.integer (Int.tdiv m n))) (sp + 1))
            (by
              rw [hcode]
              simp only [List.length_append, List.length_cons,
                List.length_nil]
              omega)
    ·
      obtain ⟨m, rfl⟩ : ∃ m, va = .integer m := by
        rcases evalExpr_flat_shape x hx va hva with ⟨m, rfl⟩ | ⟨bx, rfl⟩
        · exact ⟨_, rfl⟩
        · rcases evalExpr_flat_shape y hy vb hvb with ⟨n, rfl⟩ | ⟨by2, rfl⟩ <;>
            (unfold eval_infix_expression at hv2; cases hv2)
      obtain ⟨n, rfl⟩ : ∃ n, vb = .integer n := by
        rcases evalExpr_flat_shape y hy vb hvb with ⟨n, rfl⟩ | ⟨by2, rfl⟩
        · exact ⟨_, rfl⟩
        · unfold eval_infix_expression at hv2
          cases hv2
      unfold eval_infix_expression at hv2
      cases hv2
      have hcode : codeE (.infixExpr .lt x y) k =
          (codeE y k ++ codeE x (k + (constsE y).length)) ++ [10] :=
        rfl
      have hcons : constsE (.infixExpr .lt x y) =
          constsE y ++ constsE x := rfl
      rw [hcode, segAt_append, segAt_append] at hseg
      obtain ⟨⟨hsegx2, hsegy2⟩, hsegop⟩ := hseg
      rw [hcons, segAt_append] at hcon
      obtain ⟨hconx2, hcony2⟩ := hcon
      have hboundxy : k + (constsE y).length + (constsE x).length ≤ 65536 := by
        rw [hcons] at hbound
        simp only [List.length_append] at hbound
        omega
      rcases exec_operands y x ihy ihx I C k (Object.integer n) (Object.integer m) stack sp ip f
          hvb hva hsegx2 hsegy2 hconx2 hcony2 hboundxy hlen hsp
          (by rw [hfc] at hf; omega)
        with herr | ⟨stack2, hlen2, hpres2, hgx2, hgy2, hsp2, hrun⟩
      · exact Or.inl herr
      · rw [hrun]
        obtain ⟨g, hg⟩ : ∃ g, f - instrCount y - instrCount x = g + 1 :=
          ⟨f - instrCount y - instrCount x - 1, by rw [hfc] at hf; omega⟩
        rw [hg]
        have hop : I.get? (ip + (codeE y k).length +
            (codeE x (k + (constsE y).length)).length) = some 10 := by
          have h2 := segAt_single.mp hsegop
          simp only [List.length_append] at h2
          rwa [← Nat.add_assoc] at h2
        rw [run_step_comparison I C g stack2 (sp + 2) _ 10 _ hop rfl (Or.inr (Or.inr rfl))]
        rw [ecmp_gt_int stack2 sp n m (by unfold STACK_SIZE USIZE_MOD at *; omega) hgy2 hgx2]
        rw [vm_push_ok _ _ _ (by omega), ok_bind]
        right
        refine ⟨stack2.set sp (.boolean (m < n)), by simp [hlen2], ?_, ?_, ?_⟩
        · intro m2 hm
          rw [List.get?_set_ne _ _ (by omega)]
          exact hpres2 m2 hm
        · exact get?_set_self _ _ _ (by omega)
        · dsimp only
          rw [show f - instrCount (.infixExpr .lt x y) = g from by
            rw [hfc]; omega]
          exact congrArg
            (run_loop I C g (stack2.set sp (.boolean (m < n))) (sp + 1))
            (by
              rw [hcode]
              simp only [List.length_append, List.length_cons,
                List.length_nil]
              omega)
    ·
      obtain ⟨m, rfl⟩ : ∃ m, va = .integer m := by
        rcases evalExpr_flat_shape x hx va hva with ⟨m, rfl⟩ | ⟨bx, rfl⟩
        · exact ⟨_, rfl⟩
        · rcases evalExpr_flat_shape y hy vb hvb with ⟨n, rfl⟩ | ⟨by2, rfl⟩ <;>
            (unfold eval_infix_expression at hv2; cases hv2)
      obtain ⟨n, rfl⟩ : ∃ n, vb = .integer n := by
        rcases evalExpr_flat_shape y hy vb hvb with ⟨n, rfl⟩ | ⟨by2, rfl⟩
        · exact ⟨_, rfl⟩
        · unfold eval_infix_expression at hv2
          cases hv2
      unfold eval_infix_expression at hv2
      cases hv2
      have hcode : codeE (.infixExpr .gt x y) k =
          (codeE x k ++ codeE y (k + (constsE x).length)) ++ [10] :=
        rfl
      have hcons : constsE (.infixExpr .gt x y) =
          constsE x ++ constsE y := rfl
      rw [hcode, segAt_append, segAt_append] at hseg
      obtain ⟨⟨hsegx2, hsegy2⟩, hsegop⟩ := hseg
      rw [hcons, segAt_append] at hcon
      obtain ⟨hconx2, hcony2⟩ := hcon
      have hboundxy : k + (constsE x).length + (constsE y).length ≤ 65536 := by
        rw [hcons] at hbound
        simp only [List.length_append] at hbound
        omega
      rcases exec_operands x y ihx ihy I C k (Object.integer m) (Object.integer n) stack sp ip f
          hva hvb hsegx2 hsegy2 hconx2 hcony2 hboundxy hlen hsp
          (by rw [hfc] at hf; omega)
        with herr | ⟨stack2, hlen2, hpres2, hgx2, hgy2, hsp2, hrun⟩
      · exact Or.inl herr
      · rw [hrun]
        obtain ⟨g, hg⟩ : ∃ g, f - instrCount x - instrCount y = g + 1 :=
          ⟨f - instrCount x - instrCount y - 1, by rw [hfc] at hf; omega⟩
        rw [hg]
        have hop : I.get? (ip + (codeE x k).length +
            (codeE y (k + (constsE x).length)).length) = some 10 := by
          have h2 := segAt_single.mp hsegop
          simp only [List.length_append] at h2
          rwa [← Nat.add_assoc] at h2
        rw [run_step_comparison I C g stack2 (sp + 2) _ 10 _ hop rfl (Or.inr (Or.inr rfl))]
        rw [ecmp_gt_int stack2 sp m n (by unfold STACK_SIZE USIZE_MOD at *; omega) hgy2 hgx2]
        rw [vm_push_ok _ _ _ (by omega), ok_bind]
        right
        refine ⟨stack2.set sp (.boolean (n < m)), by simp [hlen2], ?_, ?_, ?_⟩
        · intro m2 hm
          rw [List.get?_set_ne _ _ (by omega)]
          exact hpres2 m2 hm
        · exact get?_set_self _ _ _ (by omega)
        · dsimp only
          rw [show f - instrCount (.infixExpr .gt x y) = g from by
            rw [hfc]; omega]
          exact congrArg
            (run_loop I C g (stack2.set sp (.boolean (n < m))) (sp + 1))
            (by
              rw [hcode]
              simp only [List.length_append, List.length_cons,
                List.length_nil]
              omega)
    · rcases evalExpr_flat_shape x hx va hva with ⟨m, rfl⟩ | ⟨bx, rfl⟩ <;>
        rcases evalExpr_flat_shape y hy vb hvb with ⟨n, rfl⟩ | ⟨by2, rfl⟩
      · unfold eval_infix_expression at hv2
        cases hv2
        have hcode : codeE (.infixExpr .eq x y) k =
            (codeE x k ++ codeE y (k + (constsE x).length)) ++ [8] :=
          rfl
        have hcons : constsE (.infixExpr .eq x y) =
            constsE x ++ constsE y := rfl
        rw [hcode, segAt_append, segAt_append] at hseg
        obtain ⟨⟨hsegx2, hsegy2⟩, hsegop⟩ := hseg
        rw [hcons, segAt_append] at hcon
        obtain ⟨hconx2, hcony2⟩ := hcon
        have hboundxy : k + (constsE x).length + (constsE y).length ≤ 65536 := by
          rw [hcons] at hbound
          simp only [List.length_append] at hbound
          omega
        rcases exec_operands x y ihx ihy I C k (Object.integer m) (Object.integer n) stack sp ip f
            hva hvb hsegx2 hsegy2 hconx2 hcony2 hboundxy hlen hsp
            (by rw [hfc] at hf; omega)
          with herr | ⟨stack2, hlen2, hpres2, hgx2, hgy2, hsp2, hrun⟩
        · exact Or.inl herr
        · rw [hrun]
          obtain ⟨g, hg⟩ : ∃ g, f - instrCount x - instrCount y = g + 1 :=
            ⟨f - instrCount x - instrCount y - 1, by rw [hfc] at hf; omega⟩
          rw [hg]
          have hop : I.get? (ip + (codeE x k).length +
              (codeE y (k + (constsE x).length)).length) = some 8 := by
            have h2 := segAt_single.mp hsegop
            simp only [List.length_append] at h2
            rwa [← Nat.add_assoc] at h2
          rw [run_step_comparison I C g stack2 (sp + 2) _ 8 _ hop rfl (Or.inl rfl)]
          rw [ecmp_eq_int stack2 sp m n (by unfold STACK_SIZE USIZE_MOD at *; omega) hgy2 hgx2]
          rw [vm_push_ok _ _ _ (by omega), ok_bind]
          right
          refine ⟨stack2.set sp (.boolean (m = n)), by simp [hlen2], ?_, ?_, ?_⟩
          · intro m2 hm
            rw [List.get?_set_ne _ _ (by omega)]
            exact hpres2 m2 hm
          · exact get?_set_self _ _ _ (by omega)
          · dsimp only
            rw [show f - instrCount (.infixExpr .eq x y) = g from by
              rw [hfc]; omega]
            exact congrArg
              (run_loop I C g (stack2.set sp (.boolean (m = n))) (sp + 1))
              (by
                rw [hcode]
                simp only [List.length_append, List.length_cons,
                  List.length_nil]
                omega)
      · unfold eval_infix_expression at hv2
        cases hv2
      · unfold eval_infix_expression at hv2
        cases hv2
      · unfold eval_infix_expression at hv2
        cases hv2
        have hcode : codeE (.infixExpr .eq x y) k =
            (codeE x k ++ codeE y (k + (constsE x).length)) ++ [8] :=
          rfl
        have hcons : constsE (.infixExpr .eq x y) =
            constsE x ++ constsE y := rfl
        rw [hcode, segAt_append, segAt_append] at hseg
        obtain ⟨⟨hsegx2, hsegy2⟩, hsegop⟩ := hseg
        rw [hcons, segAt_append] at hcon
        obtain ⟨hconx2, hcony2⟩ := hcon
        have hboundxy : k + (constsE x).length + (constsE y).length ≤ 65536 := by
          rw [hcons] at hbound
          simp only [List.length_append] at hbound
          omega
        rcases exec_operands x y ihx ihy I C k (Object.boolean bx) (Object.boolean by2) stack sp ip f
            hva hvb hsegx2 hsegy2 hconx2 hcony2 hboundxy hlen hsp
            (by rw [hfc] at hf; omega)
          with herr | ⟨stack2, hlen2, hpres2, hgx2, hgy2, hsp2, hrun⟩
        · exact Or.inl herr
        · rw [hrun]
          obtain ⟨g, hg⟩ : ∃ g, f - instrCount x - instrCount y = g + 1 :=
            ⟨f - instrCount x - instrCount y - 1, by rw [hfc] at hf; omega⟩
          rw [hg]
          have hop : I.get? (ip + (codeE x k).length +
              (codeE y (k + (constsE x).length)).length) = some 8 := by
            have h2 := segAt_single.mp hsegop
            simp only [List.length_append] at h2
            rwa [← Nat.add_assoc] at h2
          rw [run_step_comparison I C g stack2 (sp + 2) _ 8 _ hop rfl (Or.inl rfl)]
          rw [ecmp_eq_bool stack2 sp bx by2 (by unfold STACK_SIZE USIZE_MOD at *; omega) hgy2 hgx2]
          rw [vm_push_ok _ _ _ (by omega), ok_bind]
          right
          refine ⟨stack2.set sp (.boolean (bx = by2)), by simp [hlen2], ?_, ?_, ?_⟩
          · intro m2 hm
            rw [List.get?_set_ne _ _ (by omega)]
            exact hpres2 m2 hm
          · exact get?_set_self _ _ _ (by omega)
          · dsimp only
            rw [show f - instrCount (.infixExpr .eq x y) = g from by
              rw [hfc]; omega]
            exact congrArg
              (run_loop I C g (stack2.set sp (.boolean (bx = by2))) (sp + 1))
              (by
                rw [hcode]
                simp only [List.length_append, List.length_cons,
                  List.length_nil]
                omega)
    · rcases evalExpr_flat_shape x hx va hva with ⟨m, rfl⟩ | ⟨bx, rfl⟩ <;>
        rcases evalExpr_flat_shape y hy vb hvb with ⟨n, rfl⟩ | ⟨by2, rfl⟩
      · unfold eval_infix_expression at hv2
        cases hv2
        have hcode : codeE (.infixExpr .ne x y) k =
            (codeE x k ++ codeE y (k + (constsE x).length)) ++ [9] :=
          rfl
        have hcons : constsE (.infixExpr .ne x y) =
            constsE x ++ constsE y := rfl
        rw [hcode, segAt_append, segAt_append] at hseg
        obtain ⟨⟨hsegx2, hsegy2⟩, hsegop⟩ := hseg
        rw [hcons, segAt_append] at hcon
        obtain ⟨hconx2, hcony2⟩ := hcon
        have hboundxy : k + (constsE x).length + (constsE y).length ≤ 65536 := by
          rw [hcons] at hbound
          simp only [List.length_append] at hbound
          omega
        rcases exec_operands x y ihx ihy I C k (Object.integer m) (Object.integer n) stack sp ip f
            hva hvb hsegx2 hsegy2 hconx2 hcony2 hboundxy hlen hsp
            (by rw [hfc] at hf; omega)
          with herr | ⟨stack2, hlen2, hpres2, hgx2, hgy2, hsp2, hrun⟩
        · exact Or.inl herr
        · rw [hrun]
          obtain ⟨g, hg⟩ : ∃ g, f - instrCount x - instrCount y = g + 1 :=
            ⟨f - instrCount x - instrCount y - 1, by rw [hfc] at hf; omega⟩
          rw [hg]
          have hop : I.get? (ip + (codeE x k).length +
              (codeE y (k + (constsE x).length)).length) = some 9 := by
            have h2 := segAt_single.mp hsegop
            simp only [List.length_append] at h2
            rwa [← Nat.add_assoc] at h2
          rw [run_step_comparison I C g stack2 (sp + 2) _ 9 _ hop rfl (Or.inr (Or.inl rfl))]
          rw [ecmp_ne_int stack2 sp m n (by unfold STACK_SIZE USIZE_MOD at *; omega) hgy2 hgx2]
          rw [vm_push_ok _ _ _ (by omega), ok_bind]
          right
          refine ⟨stack2.set sp (.boolean (¬ (m = n))), by simp [hlen2], ?_, ?_, ?_⟩
          · intro m2 hm
            rw [List.get?_set_ne _ _ (by omega)]
            exact hpres2 m2 hm
          · exact get?_set_self _ _ _ (by omega)
          · dsimp only
            rw [show f - instrCount (.infixExpr .ne x y) = g from by
              rw [hfc]; omega]
            exact congrArg
              (run_loop I C g (stack2.set sp (.boolean (¬ (m = n)))) (sp + 1))
              (by
                rw [hcode]
                simp only [List.length_append, List.length_cons,
                  List.length_nil]
                omega)
      · unfold eval_infix_expression at hv2
        cases hv2
      · unfold eval_infix_expression at hv2
        cases hv2
      · unfold eval_infix_expression at hv2
        cases hv2
        have hcode : codeE (.infixExpr .ne x y) k =
            (codeE x k ++ codeE y (k + (constsE x).length)) ++ [9] :=
          rfl
        have hcons : constsE (.infixExpr .ne x y) =
            constsE x ++ constsE y := rfl
        rw [hcode, segAt_append, segAt_append] at hseg
        obtain ⟨⟨hsegx2, hsegy2⟩, hsegop⟩ := hseg
        rw [hcons, segAt_append] at hcon
        obtain ⟨hconx2, hcony2⟩ := hcon
        have hboundxy : k + (constsE x).length + (constsE y).length ≤ 65536 := by
          rw [hcons] at hbound
          simp only [List.length_append] at hbound
          omega
        rcases exec_operands x y ihx ihy I C k (Object.boolean bx) (Object.boolean by2) stack sp ip f
            hva hvb hsegx2 hsegy2 hconx2 hcony2 hboundxy hlen hsp
            (by rw [hfc] at hf; omega)
          with herr | ⟨stack2, hlen2, hpres2, hgx2, hgy2, hsp2, hrun⟩
        · exact Or.inl herr
        · rw [hrun]
          obtain ⟨g, hg⟩ : ∃ g, f - instrCount x - instrCount y = g + 1 :=
            ⟨f - instrCount x - instrCount y - 1, by rw [hfc] at hf; omega⟩
          rw [hg]
          have hop : I.get? (ip + (codeE x k).length +
              (codeE y (k + (constsE x).length)).length) = some 9 := by
            have h2 := segAt_single.mp hsegop
            simp only [List.length_append] at h2
            rwa [← Nat.add_assoc] at h2
          rw [run_step_comparison I C g stack2 (sp + 2) _ 9 _ hop rfl (Or.inr (Or.inl rfl))]
          rw [ecmp_ne_bool stack2 sp bx by2 (by unfold STACK_SIZE USIZE_MOD at *; omega) hgy2 hgx2]
          rw [vm_push_ok _ _ _ (by omega), ok_bind]
          right
          refine ⟨stack2.set sp (.boolean (¬ (bx = by2))), by simp [hlen2], ?_, ?_, ?_⟩
          · intro m2 hm
            rw [List.get?_set_ne _ _ (by omega)]
            exact hpres2 m2 hm
          · exact get?_set_self _ _ _ (by omega)
          · dsimp only
            rw [show f - instrCount (.infixExpr .ne x y) = g from by
              rw [hfc]; omega]
            exact congrArg
              (run_loop I C g (stack2.set sp (.boolean (¬ (bx = by2)))) (sp + 1))
              (by
                rw [hcode]
                simp only [List.length_append, List.length_cons,
                  List.length_nil]
                omega)
/-! ## Claim C2: flat statements and whole programs -/

/-- Statements in the flat subset: expression statements over flat
expressions. -/
inductive FlatS : Statement → Prop where
  | mk (e : Expression) : FlatE e → FlatS (.expression e)

/-- The instruction bytes one flat expression statement compiles to: the
expression's code followed by a `Pop`. -/
def codeS (e : Expression) (k : Nat) : List Nat :=
  codeE e k ++ [1]

/-- The instruction bytes a flat statement list compiles to, given that
`k` constants precede its own in the pool. -/
def codeL : List Statement → Nat → List Nat
  | [], _ => []
  | .expression e :: rest, k =>
    codeS e k ++ codeL rest (k + (constsE e).length)
  | _ :: _, _ => []

/-- The constants pool a flat statement list contributes, in emission
order. -/
def constsL : List Statement → List Object
  | [] => []
  | .expression e :: rest => constsE e ++ constsL rest
  | _ :: _ => []

/-- The number of VM dispatch steps a flat statement list's code takes. -/
def instrCountL : List Statement → Nat
  | [] => 0
  | .expression e :: rest => instrCount e + 1 + instrCountL rest
  | _ :: _ => 0

/-- Each instruction occupies at least one byte, so the dispatch-step
count of a flat expression is bounded by its code length. -/
theorem instrCount_le_codeE : ∀ (e : Expression) (k : Nat),
    instrCount e ≤ (codeE e k).length
  | .integerLiteral n, k => by
    simp [instrCount, codeE, make, u16Bytes]
  | .boolean b, k => by
    cases b <;> simp [instrCount, codeE, make]
  | .prefixExpr t r, k => by
    have ih := instrCount_le_codeE r k
    by_cases ht : t = .bang <;>
      simp [instrCount, codeE, make, ht, List.length_append] <;> omega
  | .infixExpr t a b, k => by
    by_cases hlt : t = .lt
    · have iha := instrCount_le_codeE a (k + (constsE b).length)
      have ihb := instrCount_le_codeE b k
      simp [instrCount, codeE, make, hlt, List.length_append]
      omega
    · have iha := instrCount_le_codeE a k
      have ihb := instrCount_le_codeE b (k + (constsE a).length)
      simp [instrCount, codeE, make, hlt, List.length_append]
      omega
  | .identifier, _ => by simp [instrCount, codeE]
  | .stringLiteral, _ => by simp [instrCount, codeE]
  | .ifExpr c t e, _ => by simp [instrCount, codeE]
  | .functionLiteral, _ => by simp [instrCount, codeE]
  | .call, _ => by simp [instrCount, codeE]
  | .arrayLiteral, _ => by simp [instrCount, codeE]
  | .indexExpression, _ => by simp [instrCount, codeE]
  | .hashLiteral, _ => by simp [instrCount, codeE]

/-- The dispatch-step count of a flat statement list is bounded by its
code length. -/
theorem instrCountL_le_codeL : ∀ (l : List Statement) (k : Nat),
    instrCountL l ≤ (codeL l k).length
  | [], _ => by simp [instrCountL, codeL]
  | .expression e :: rest, k => by
    have ih := instrCountL_le_codeL rest (k + (constsE e).length)
    have he := instrCount_le_codeE e k
    simp [instrCountL, codeL, codeS, List.length_append]
    omega
  | .letStmt :: rest, k => by simp [instrCountL, codeL]
  | .returnStmt :: rest, k => by simp [instrCountL, codeL]
  | .block l2 :: rest, k => by simp [instrCountL, codeL]

/-- A list is a segment of itself at offset 0. -/
theorem segAt_refl {α : Type} (l : List α) : SegAt l 0 l := by
  intro j hj
  rw [Nat.zero_add]

/-- Past the end of the instruction stream the dispatch loop returns the
current stack and stack pointer. -/
theorem run_loop_done (I : List Nat) (C : List Object) (f : Nat)
    (stack : List Object) (sp ip : Nat) (h : I.length ≤ ip) :
    run_loop I C f stack sp ip = .ok (stack, sp) := by
  cases f with
  | zero => rw [run_loop, if_neg (by omega)]
  | succ g => rw [run_loop, dif_neg (by omega)]

/-- Simulation for one flat expression statement: the VM executes the
expression's code and the trailing `Pop`, leaving the statement's value
just above the restored stack pointer. -/
theorem stmt_exec (e : Expression) (he : FlatE e)
    (I : List Nat) (C : List Object) (k : Nat) (v : Object)
    (stack : List Object) (sp ip f : Nat)
    (hv : evalExpr e = .ok v)
    (hseg : SegAt I ip (codeS e k))
    (hcon : SegAt C k (constsE e))
    (hbound : k + (constsE e).length ≤ 65536)
    (hlen : stack.length = STACK_SIZE)
    (hsp : sp ≤ STACK_SIZE)
    (hspm : sp + 1 < USIZE_MOD)
    (hf : instrCount e + 1 ≤ f) :
    run_loop I C f stack sp ip = .error (.err "stack overflow") ∨
      ∃ stack', stack'.length = STACK_SIZE ∧
        (∀ m, m < sp → stack'.get? m = stack.get? m) ∧
        stack'.get? sp = some v ∧
        run_loop I C f stack sp ip =
          run_loop I C (f - (instrCount e + 1)) stack' sp
            (ip + (codeS e k).length) := by
  unfold codeS at hseg
  rw [segAt_append] at hseg
  obtain ⟨hsegE, hsegP⟩ := hseg
  rcases codeE_exec e he I C k v stack sp ip f hv hsegE hcon hbound hlen hsp
      (by omega) with herr | ⟨stack', hlen', hpres, hget, hrun⟩
  · exact Or.inl herr
  · rw [hrun]
    obtain ⟨g, hg⟩ : ∃ g, f - instrCount e = g + 1 :=
      ⟨f - instrCount e - 1, by omega⟩
    rw [hg]
    have hpop : vm_pop stack' (sp + 1) = .ok (sp, v) :=
      vm_pop_ok stack' (sp + 1) v (by omega) hspm hget
    rw [run_step_pop I C g stack' (sp + 1) (ip + (codeE e k).length) sp v
      (segAt_single.mp hsegP) hpop]
    right
    refine ⟨stack', hlen', hpres, hget, ?_⟩
    rw [show f - (instrCount e + 1) = g from by omega]
    exact congrArg (run_loop I C g stack' sp) (by
      unfold codeS
      simp only [List.length_append, List.length_cons, List.length_nil]
      omega)

/-- Simulation for a nonempty flat statement list: the VM executes each
statement's code in turn; afterwards the slot just above the stack
pointer holds the last statement's value — exactly what the evaluator
returns for the list. -/
theorem prog_exec (v : Object) (I : List Nat) (C : List Object)
    (sp : Nat) (hsp : sp ≤ STACK_SIZE) (hspm : sp + 1 < USIZE_MOD) :
    ∀ (l : List Statement), (∀ s ∈ l, FlatS s) → l ≠ [] →
    ∀ (k : Nat) (stack : List Object) (ip f : Nat),
      eval_statements l = .ok v →
      SegAt I ip (codeL l k) →
      SegAt C k (constsL l) →
      k + (constsL l).length ≤ 65536 →
      stack.length = STACK_SIZE →
      instrCountL l ≤ f →
      (run_loop I C f stack sp ip = .error (.err "stack overflow") ∨
        ∃ stack', stack'.length = STACK_SIZE ∧
          stack'.get? sp = some v ∧
          run_loop I C f stack sp ip =
            run_loop I C (f - instrCountL l) stack' sp
              (ip + (codeL l k).length)) := by
  intro l
  induction l with
  | nil => intro _ hne; exact absurd rfl hne
  | cons s rest ih =>
    intro hflat _ k stack ip f hv hseg hcon hbound hlen hf
    have hs := hflat s (List.mem_cons_self s rest)
    cases hs with
    | mk e hfe =>
    rw [eval_statements] at hv
    have hstmt : evalStmt (Statement.expression e) = evalExpr e := rfl
    rw [hstmt] at hv
    obtain ⟨r, hr, hv2⟩ := except_bind_ok hv
    have hcodeL : codeL (Statement.expression e :: rest) k =
        codeS e k ++ codeL rest (k + (constsE e).length) := rfl
    have hconsL : constsL (Statement.expression e :: rest) =
        constsE e ++ constsL rest := rfl
    have hcount : instrCountL (Statement.expression e :: rest) =
        instrCount e + 1 + instrCountL rest := rfl
    rw [hcodeL, segAt_append] at hseg
    obtain ⟨hseg1, hseg2⟩ := hseg
    rw [hconsL, segAt_append] at hcon
    obtain ⟨hcon1, hcon2⟩ := hcon
    have hbound1 : k + (constsE e).length ≤ 65536 := by
      rw [hconsL] at hbound
      simp only [List.length_append] at hbound
      omega
    rcases stmt_exec e hfe I C k r stack sp ip f hr hseg1 hcon1 hbound1 hlen
        hsp hspm (by rw [hcount] at hf; omega)
      with herr | ⟨stack1, hlen1, hpres1, hget1, hrun1⟩
    · exact Or.inl herr
    · rw [hrun1]
      cases rest with
      | nil =>
        cases hv2
        right
        refine ⟨stack1, hlen1, hget1, ?_⟩
        rw [show instrCountL [Statement.expression e] = instrCount e + 1
          from rfl]
        exact congrArg
          (run_loop I C (f - (instrCount e + 1)) stack1 sp)
          (by
            rw [hcodeL]
            simp only [List.length_append]
            have h0 : (codeL ([] : List Statement)
              (k + (constsE e).length)).length = 0 := rfl
            omega)
      | cons s2 rest2 =>
        replace hv2 : eval_statements (s2 :: rest2) = .ok v := hv2
        have hbound2 : k + (constsE e).length +
            (constsL (s2 :: rest2)).length ≤ 65536 := by
          rw [hconsL] at hbound
          simp only [List.length_append] at hbound
          omega
        rcases ih (fun s3 hs3 => hflat s3 (List.mem_cons_of_mem _ hs3))
            (by simp) (k + (constsE e).length) stack1
            (ip + (codeS e k).length) (f - (instrCount e + 1)) hv2 hseg2
            hcon2 hbound2 hlen1 (by rw [hcount] at hf; omega)
          with herr2 | ⟨stack2, hlen2, hget2, hrun2⟩
        · exact Or.inl herr2
        · rw [hrun2]
          right
          refine ⟨stack2, hlen2, hget2, ?_⟩
          rw [show f - (instrCount e + 1) - instrCountL (s2 :: rest2) =
              f - instrCountL (Statement.expression e :: s2 :: rest2) from by
            rw [hcount]
            omega]
          exact congrArg
            (run_loop I C
              (f - instrCountL (Statement.expression e :: s2 :: rest2))
              stack2 sp)
            (by
              rw [hcodeL]
              simp only [List.length_append]
              omega)

/-- The compiler's output on a flat expression: it appends exactly the
spec-level code and constants to the incoming state. -/
theorem compileExpr_shape (e : Expression) (he : FlatE e) :
    ∀ c : Compiler, ∃ c' : Compiler,
      compileExpr c e = .ok c' ∧
      c'.instructions = c.instructions ++ codeE e c.constants.length ∧
      c'.constants = c.constants ++ constsE e := by
  induction he with
  | int n =>
    intro c
    have h1 : compileExpr c (.integerLiteral n) =
        .ok (emit { c with constants := c.constants ++ [Object.integer n] }
          .constant [c.constants.length]).1 := rfl
    refine ⟨_, h1, ?_, ?_⟩
    · rw [emit_instructions]
      rfl
    · rw [emit_constants]
      rfl
  | bool b =>
    intro c
    cases b
    · exact ⟨_, rfl, by rw [emit_instructions]; rfl,
        by rw [emit_constants]; simp [constsE]⟩
    · exact ⟨_, rfl, by rw [emit_instructions]; rfl,
        by rw [emit_constants]; simp [constsE]⟩
  | bang r hr ih =>
    intro c
    obtain ⟨c1, hc1, hI, hC⟩ := ih c
    have h1 : compileExpr c (.prefixExpr .bang r) =
        .ok (emit c1 .bang []).1 := by
      rw [compileExpr, hc1]
      rfl
    refine ⟨_, h1, ?_, ?_⟩
    · rw [emit_instructions, hI, List.append_assoc]
      rfl
    · rw [emit_constants, hC]
      rfl
  | neg r hr ih =>
    intro c
    obtain ⟨c1, hc1, hI, hC⟩ := ih c
    have h1 : compileExpr c (.prefixExpr .minus r) =
        .ok (emit c1 .minus []).1 := by
      rw [compileExpr, hc1]
      rfl
    refine ⟨_, h1, ?_, ?_⟩
    · rw [emit_instructions, hI, List.append_assoc]
      rfl
    · rw [emit_constants, hC]
      rfl
  | inf t a b ht ha hb iha ihb =>
    intro c
    by_cases hlt : t = .lt
    · subst hlt
      obtain ⟨c1, hc1, hI1, hC1⟩ := ihb c
      obtain ⟨c2, hc2, hI2, hC2⟩ := iha c1
      have h1 : compileExpr c (.infixExpr .lt a b) =
          .ok (emit c2 .greaterThan []).1 := by
        rw [compileExpr, if_pos rfl, hc1, ok_bind, hc2]
        rfl
      refine ⟨_, h1, ?_, ?_⟩
      · rw [emit_instructions, hI2, hI1, hC1, List.length_append,
          show (make .greaterThan [] : List Nat) = [10] from rfl,
          show codeE (.infixExpr .lt a b) c.constants.length =
            (codeE b c.constants.length ++
              codeE a (c.constants.length + (constsE b).length)) ++ [10]
            from rfl]
        simp [List.append_assoc]
      · rw [emit_constants, hC2, hC1,
          show constsE (.infixExpr .lt a b) = constsE b ++ constsE a from
            rfl]
        simp [List.append_assoc]
    · obtain ⟨c1, hc1, hI1, hC1⟩ := iha c
      obtain ⟨c2, hc2, hI2, hC2⟩ := ihb c1
      rcases ht with rfl | rfl | rfl | rfl | rfl | rfl | rfl | rfl
      · have h1 : compileExpr c (.infixExpr .plus a b) =
            .ok (emit c2 .add []).1 := by
          rw [compileExpr, if_neg hlt, hc1, ok_bind, hc2]
          rfl
        refine ⟨_, h1, ?_, ?_⟩
        · rw [emit_instructions, hI2, hI1, hC1, List.length_append,
            show (make .add [] : List Nat) = [2] from rfl,
            show codeE (.infixExpr .plus a b) c.constants.length =
              (codeE a c.constants.length ++
                codeE b (c.constants.length + (constsE a).length)) ++ [2]
              from rfl]
          simp [List.append_assoc]
        · rw [emit_constants, hC2, hC1,
            show constsE (.infixExpr .plus a b) = constsE a ++ constsE b
              from rfl]
          simp [List.append_assoc]
      · have h1 : compileExpr c (.infixExpr .minus a b) =
            .ok (emit c2 .sub []).1 := by
          rw [compileExpr, if_neg hlt, hc1, ok_bind, hc2]
          rfl
        refine ⟨_, h1, ?_, ?_⟩
        · rw [emit_instructions, hI2, hI1, hC1, List.length_append,
            show (make .sub [] : List Nat) = [3] from rfl,
            show codeE (.infixExpr .minus a b) c.constants.length =
              (codeE a c.constants.length ++
                codeE b (c.constants.length + (constsE a).length)) ++ [3]
              from rfl]
          simp [List.append_assoc]
        · rw [emit_constants, hC2, hC1,
            show constsE (.infixExpr .minus a b) = constsE a ++ constsE b
              from rfl]
          simp [List.append_assoc]
      · have h1 : compileExpr c (.infixExpr .asterisk a b) =
            .ok (emit c2 .mul []).1 := by
          rw [compileExpr, if_neg hlt, hc1, ok_bind, hc2]
          rfl
        refine ⟨_, h1, ?_, ?_⟩
        · rw [emit_instructions, hI2, hI1, hC1, List.length_append,
            show (make .mul [] : List Nat) = [4] from rfl,
            show codeE (.infixExpr .asterisk a b) c.constants.length =
              (codeE a c.constants.length ++
                codeE b (c.constants.length + (constsE a).length)) ++ [4]
              from rfl]
          simp [List.append_assoc]
        · rw [emit_constants, hC2, hC1,
            show constsE (.infixExpr .asterisk a b) = constsE a ++ constsE b
              from rfl]
          simp [List.append_assoc]
      · have h1 : compileExpr c (.infixExpr .slash a b) =
            .ok (emit c2 .div []).1 := by
          rw [compileExpr, if_neg hlt, hc1, ok_bind, hc2]
          rfl
        refine ⟨_, h1, ?_, ?_⟩
        · rw [emit_instructions, hI2, hI1, hC1, List.length_append,
            show (make .div [] : List Nat) = [5] from rfl,
            show codeE (.infixExpr .slash a b) c.constants.length =
              (codeE a c.constants.length ++
                codeE b (c.constants.length + (constsE a).length)) ++ [5]
              from rfl]
          simp [List.append_assoc]
        · rw [emit_constants, hC2, hC1,
            show constsE (.infixExpr .slash a b) = constsE a ++ constsE b
              from rfl]
          simp [List.append_assoc]
      · exact absurd rfl hlt
      · have h1 : compileExpr c (.infixExpr .gt a b) =
            .ok (emit c2 .greaterThan []).1 := by
          rw [compileExpr, if_neg hlt, hc1, ok_bind, hc2]
          rfl
        refine ⟨_, h1, ?_, ?_⟩
        · rw [emit_instructions, hI2, hI1, hC1, List.length_append,
            show (make .greaterThan [] : List Nat) = [10] from rfl,
            show codeE (.infixExpr .gt a b) c.constants.length =
              (codeE a c.constants.length ++
                codeE b (c.constants.length + (constsE a).length)) ++ [10]
              from rfl]
          simp [List.append_assoc]
        · rw [emit_constants, hC2, hC1,
            show constsE (.infixExpr .gt a b) = constsE a ++ constsE b
              from rfl]
          simp [List.append_assoc]
      · have h1 : compileExpr c (.infixExpr .eq a b) =
            .ok (emit c2 .equal []).1 := by
          rw [compileExpr, if_neg hlt, hc1, ok_bind, hc2]
          rfl
        refine ⟨_, h1, ?_, ?_⟩
        · rw [emit_instructions, hI2, hI1, hC1, List.length_append,
            show (make .equal [] : List Nat) = [8] from rfl,
            show codeE (.infixExpr .eq a b) c.constants.length =
              (codeE a c.constants.length ++
                codeE b (c.constants.length + (constsE a).length)) ++ [8]
              from rfl]
          simp [List.append_assoc]
        · rw [emit_constants, hC2, hC1,
            show constsE (.infixExpr .eq a b) = constsE a ++ constsE b
              from rfl]
          simp [List.append_assoc]
      · have h1 : compileExpr c (.infixExpr .ne a b) =
            .ok (emit c2 .notEqual []).1 := by
          rw [compileExpr, if_neg hlt, hc1, ok_bind, hc2]
          rfl
        refine ⟨_, h1, ?_, ?_⟩
        · rw [emit_instructions, hI2, hI1, hC1, List.length_append,
            show (make .notEqual [] : List Nat) = [9] from rfl,
            show codeE (.infixExpr .ne a b) c.constants.length =
              (codeE a c.constants.length ++
                codeE b (c.constants.length + (constsE a).length)) ++ [9]
              from rfl]
          simp [List.append_assoc]
        · rw [emit_constants, hC2, hC1,
            show constsE (.infixExpr .ne a b) = constsE a ++ constsE b
              from rfl]
          simp [List.append_assoc]

/-- The compiler's output on a flat expression statement: the
expression's code followed by a `Pop`. -/
theorem compileStmt_shape (e : Expression) (he : FlatE e) (c : Compiler) :
    ∃ c' : Compiler,
      compileStmt c (.expression e) = .ok c' ∧
      c'.instructions = c.instructions ++ codeS e c.constants.length ∧
      c'.constants = c.constants ++ constsE e := by
  obtain ⟨c1, hc1, hI, hC⟩ := compileExpr_shape e he c
  have h1 : compileStmt c (.expression e) = .ok (emit c1 .pop []).1 := by
    rw [compileStmt, hc1]
    rfl
  refine ⟨_, h1, ?_, ?_⟩
  · rw [emit_instructions, hI, List.append_assoc]
    rfl
  · rw [emit_constants, hC]

/-- The compiler's output on a flat statement list. -/
theorem compileStmtList_shape (l : List Statement) :
    (∀ s ∈ l, FlatS s) →
    ∀ c : Compiler, ∃ c' : Compiler,
      compileStmtList c l = .ok c' ∧
      c'.instructions = c.instructions ++ codeL l c.constants.length ∧
      c'.constants = c.constants ++ constsL l := by
  induction l with
  | nil =>
    intro _ c
    exact ⟨c, rfl, by simp [codeL], by simp [constsL]⟩
  | cons s rest ih =>
    intro hflat c
    have hs := hflat s (List.mem_cons_self s rest)
    cases hs with
    | mk e he =>
    obtain ⟨c1, hc1, hI1, hC1⟩ := compileStmt_shape e he c
    obtain ⟨c2, hc2, hI2, hC2⟩ :=
      ih (fun s2 hs2 => hflat s2 (List.mem_cons_of_mem _ hs2)) c1
    have h1 : compileStmtList c (Statement.expression e :: rest) =
        .ok c2 := by
      rw [compileStmtList, hc1, ok_bind, hc2]
    refine ⟨c2, h1, ?_, ?_⟩
    · rw [hI2, hI1, hC1, List.length_append,
        show codeL (Statement.expression e :: rest) c.constants.length =
          codeS e c.constants.length ++
            codeL rest (c.constants.length + (constsE e).length) from rfl]
      simp [List.append_assoc]
    · rw [hC2, hC1,
        show constsL (Statement.expression e :: rest) =
          constsE e ++ constsL rest from rfl]
      simp [List.append_assoc]

/-- Reading `last_popped_stack_elem` off a literal VM record. -/
theorem Vm.last_popped_mk (C : List Object) (I : List Nat)
    (S : List Object) (sp : Nat) :
    (Vm.mk C I S sp).last_popped_stack_elem =
      match S.get? sp with
      | some obj => .ok obj
      | none => .error
          (.err "could not pop from the stack, index is out of bounds") :=
  rfl
/-! ## Claim C2 -/

/-- Claim C2 (corrected to the subset both back ends implement):
for a nonempty program of expression statements over integer and boolean
literals, prefix `!` / `-` and the eight supported infix operators, with
at most 65536 constants, if the tree-walking evaluator succeeds with
value `v`, the compiler succeeds, and the VM run succeeds, then the VM's
`last_popped_stack_elem` is exactly `v`. -/
theorem vm_agrees_with_evaluator_on_flat_programs
    (stmts : List Statement) (hflat : ∀ s ∈ stmts, FlatS s)
    (hne : stmts ≠ []) (v : Object)
    (hv : eval (.statements stmts) = .ok v) (comp : Compiler)
    (hcomp : compile Compiler.new (.statements stmts) = .ok comp)
    (hbound : comp.constants.length ≤ 65536) (vm2 : Vm)
    (hrun : (Vm.new (byte_code comp)).run = .ok vm2) :
    vm2.last_popped_stack_elem = .ok v := by
  obtain ⟨c', hc', hI, hC⟩ := compileStmtList_shape stmts hflat Compiler.new
  rw [compile, hc'] at hcomp
  injection hcomp with hcc
  subst hcc
  have hI0 : c'.instructions = codeL stmts 0 := by
    rw [hI]
    rfl
  have hC0 : c'.constants = constsL stmts := by
    rw [hC]
    rfl
  have hbc : byte_code c' = ByteCode.mk (codeL stmts 0) (constsL stmts) := by
    rw [show byte_code c' = ByteCode.mk c'.instructions c'.constants
      from rfl, hI0, hC0]
  rw [hbc, Vm.new_mk, Vm.run_mk] at hrun
  rw [eval] at hv
  have hlen : (List.replicate STACK_SIZE Object.null).length = STACK_SIZE :=
    by simp
  have hfuel : instrCountL stmts ≤ (codeL stmts 0).length + 1 := by
    have := instrCountL_le_codeL stmts 0
    omega
  have hbnd : (0 : Nat) + (constsL stmts).length ≤ 65536 := by
    rw [hC0] at hbound
    omega
  rcases prog_exec v (codeL stmts 0) (constsL stmts) 0
      (by unfold STACK_SIZE; omega) (by unfold USIZE_MOD; omega)
      stmts hflat hne 0 (List.replicate STACK_SIZE Object.null) 0
      ((codeL stmts 0).length + 1) hv (segAt_refl _) (segAt_refl _) hbnd
      hlen hfuel
    with herr | ⟨stack', hlen', hget', hrun'⟩
  · rw [herr] at hrun
    cases hrun
  · rw [hrun', run_loop_done _ _ _ _ _ _ (by omega)] at hrun
    injection hrun with hvm
    subst hvm
    rw [Vm.last_popped_mk, hget']

/-- Claim C2, counterexample to the claimed subset: the claim includes
`if`/`else`, but on `if (true) { 1 } else { 2 }` the tree-walking
evaluator hits the `todo!()` of its `If` arm (a panic) instead of
producing a value, and the compile-then-run pipeline panics as well (the
VM's `Jump`/`JumpNotTruthy` arms are `todo!()`), so neither back end
produces a final value on `if`/`else` programs. -/
theorem no_value_on_if_else_programs :
    eval (.statements [.expression (.ifExpr (.boolean true)
        (.block [.expression (.integerLiteral 1)])
        (some (.block [.expression (.integerLiteral 2)])))]) =
      .error .panics ∧
    pipeline (.statements [.expression (.ifExpr (.boolean true)
        (.block [.expression (.integerLiteral 1)])
        (some (.block [.expression (.integerLiteral 2)])))]) =
      .error .panics :=
  ⟨rfl, rfl⟩

theorem vm_agrees_with_evaluator_on_flat_programs_witness :
    (Vm.mk [Object.integer 1, Object.integer 2]
        [0, 0, 0, 0, 0, 1, 2, 1]
        (Object.integer 3 :: Object.integer 2 ::
          List.replicate 2046 Object.null)
        0).last_popped_stack_elem = .ok (.integer 3) :=
  vm_agrees_with_evaluator_on_flat_programs
    [.expression (.infixExpr .plus (.integerLiteral 1) (.integerLiteral 2))]
    (by
      intro s hs
      rw [List.mem_singleton] at hs
      subst hs
      exact FlatS.mk _ (FlatE.inf .plus _ _ (Or.inl rfl)
        (FlatE.int 1) (FlatE.int 2)))
    (List.cons_ne_nil _ _)
    (.integer 3) rfl
    (Compiler.mk [0, 0, 0, 0, 0, 1, 2, 1]
      [Object.integer 1, Object.integer 2]
      (some ⟨.pop, 7⟩) (some ⟨.add, 6⟩))
    rfl
    (by decide)
    (Vm.mk [Object.integer 1, Object.integer 2] [0, 0, 0, 0, 0, 1, 2, 1]
      (Object.integer 3 :: Object.integer 2 ::
        List.replicate 2046 Object.null)
      0)
    rfl
/-! ## Claim C7 infrastructure: instruction chunks and jump targets -/

/-- An instruction stream decomposed into instructions: each chunk is an
opcode together with the (untruncated) operand list `make` was called
with. -/
def flatC : List (OpCodeType × List Nat) → List Nat
  | [] => []
  | ch :: cs => make ch.1 ch.2 ++ flatC cs

/-- The absolute start position of every instruction of a chunk list whose
first instruction starts at `n`. -/
def startsC : Nat → List (OpCodeType × List Nat) → List Nat
  | _, [] => []
  | n, ch :: cs => n :: startsC (n + (make ch.1 ch.2).length) cs

/-- Every `Jump` / `JumpNotTruthy` chunk of the list carries a single
operand satisfying `P`. -/
def chunkTargets : List (OpCodeType × List Nat) → (Nat → Prop) → Prop
  | [], _ => True
  | ch :: cs, P =>
    ((ch.1 = OpCodeType.jump ∨ ch.1 = OpCodeType.jumpNotTruthy) →
      ∃ t, ch.2 = [t] ∧ P t) ∧
    chunkTargets cs P

/-- How `last_instruction` relates to the chunks `Δ = cs` a compilation
step appended starting at position `n`: untouched if nothing was emitted,
otherwise the opcode and start position of the last appended chunk. -/
def lastChunkInfo (c c2 : Compiler) (n : Nat)
    (cs : List (OpCodeType × List Nat)) : Prop :=
  (cs = [] ∧ c2.last_instruction = c.last_instruction) ∨
  (∃ cs0 op ops, cs = cs0 ++ [(op, ops)] ∧
    c2.last_instruction = some ⟨op, n + (flatC cs0).length⟩)

theorem flatC_nil : flatC [] = [] := rfl

theorem flatC_single (ch : OpCodeType × List Nat) :
    flatC [ch] = make ch.1 ch.2 := by
  simp [flatC]

theorem flatC_append (cs1 cs2 : List (OpCodeType × List Nat)) :
    flatC (cs1 ++ cs2) = flatC cs1 ++ flatC cs2 := by
  induction cs1 with
  | nil => simp [flatC]
  | cons ch cs ih => simp [flatC, ih]

theorem make_length_pos (op : OpCodeType) (ops : List Nat) :
    0 < (make op ops).length := by
  simp [make]

theorem startsC_append (n : Nat) (cs1 cs2 : List (OpCodeType × List Nat)) :
    startsC n (cs1 ++ cs2) =
      startsC n cs1 ++ startsC (n + (flatC cs1).length) cs2 := by
  induction cs1 generalizing n with
  | nil => simp [startsC, flatC]
  | cons ch cs ih =>
    show n :: startsC (n + (make ch.1 ch.2).length) (cs ++ cs2) =
        startsC n (ch :: cs) ++ startsC (n + (flatC (ch :: cs)).length) cs2
    rw [ih]
    show n :: (startsC (n + (make ch.1 ch.2).length) cs ++
        startsC (n + (make ch.1 ch.2).length + (flatC cs).length) cs2) =
      n :: (startsC (n + (make ch.1 ch.2).length) cs ++
        startsC (n + (flatC (ch :: cs)).length) cs2)
    rw [show n + (flatC (ch :: cs)).length =
      n + (make ch.1 ch.2).length + (flatC cs).length from by
        rw [flatC, List.length_append]
        omega]

theorem startsC_head_mem (n : Nat) (cs : List (OpCodeType × List Nat))
    (h : cs ≠ []) : n ∈ startsC n cs := by
  cases cs with
  | nil => exact absurd rfl h
  | cons ch cs => exact List.mem_cons_self _ _

theorem mem_startsC_lt (n : Nat) (cs : List (OpCodeType × List Nat))
    (p : Nat) (h : p ∈ startsC n cs) : p < n + (flatC cs).length := by
  induction cs generalizing n with
  | nil => cases h
  | cons ch cs ih =>
    rcases List.mem_cons.mp h with rfl | h2
    · have := make_length_pos ch.1 ch.2
      simp [flatC, List.length_append]
      omega
    · have := ih _ h2
      simp only [flatC, List.length_append]
      omega

theorem chunkTargets_append (cs1 cs2 : List (OpCodeType × List Nat))
    (P : Nat → Prop) :
    chunkTargets (cs1 ++ cs2) P ↔
      chunkTargets cs1 P ∧ chunkTargets cs2 P := by
  induction cs1 with
  | nil => simp [chunkTargets]
  | cons ch cs ih =>
    simp only [List.cons_append, chunkTargets, ih]
    tauto

theorem chunkTargets_mono (cs : List (OpCodeType × List Nat))
    (P Q : Nat → Prop) (h : chunkTargets cs P) (hpq : ∀ t, P t → Q t) :
    chunkTargets cs Q := by
  induction cs with
  | nil => trivial
  | cons ch cs ih =>
    exact ⟨fun hj => by
        obtain ⟨t, hops, hp⟩ := h.1 hj
        exact ⟨t, hops, hpq t hp⟩,
      ih h.2⟩

/-- Chunks whose targets sit inside (or at the end of) their own span
keep valid targets when further chunks are appended to the right. -/
theorem targets_into_append (n : Nat)
    (cs1 cs2 : List (OpCodeType × List Nat)) (h2 : cs2 ≠ [])
    (h : chunkTargets cs1 (fun t =>
      t ∈ startsC n cs1 ∨ t = n + (flatC cs1).length)) :
    chunkTargets cs1 (fun t => t ∈ startsC n (cs1 ++ cs2)) := by
  refine chunkTargets_mono _ _ _ h ?_
  intro t ht
  rw [startsC_append]
  rcases ht with hmem | hend
  · exact List.mem_append_left _ hmem
  · subst hend
    exact List.mem_append_right _ (startsC_head_mem _ _ h2)

/-- Chunks with strictly internal targets stay valid inside a larger
chunk list. -/
theorem targets_shift (n : Nat) (cs1 cs2 : List (OpCodeType × List Nat))
    (h : chunkTargets cs2 (fun t =>
      t ∈ startsC (n + (flatC cs1).length) cs2)) :
    chunkTargets cs2 (fun t => t ∈ startsC n (cs1 ++ cs2)) := by
  refine chunkTargets_mono _ _ _ h ?_
  intro t ht
  rw [startsC_append]
  exact List.mem_append_right _ ht

/-- Trailing chunks with targets inside their span or at its end stay
valid inside a larger chunk list ending with them. -/
theorem targets_shift_end (n : Nat)
    (cs1 cs2 : List (OpCodeType × List Nat))
    (h : chunkTargets cs2 (fun t =>
      t ∈ startsC (n + (flatC cs1).length) cs2 ∨
      t = n + (flatC cs1).length + (flatC cs2).length)) :
    chunkTargets cs2 (fun t =>
      t ∈ startsC n (cs1 ++ cs2) ∨ t = n + (flatC (cs1 ++ cs2)).length) := by
  refine chunkTargets_mono _ _ _ h ?_
  intro t ht
  rcases ht with hmem | hend
  · left
    rw [startsC_append]
    exact List.mem_append_right _ hmem
  · right
    rw [flatC_append, List.length_append]
    omega

theorem lastChunkInfo_comp (c c1 c2 : Compiler) (n : Nat)
    (cs1 cs2 : List (OpCodeType × List Nat))
    (h1 : lastChunkInfo c c1 n cs1)
    (h2 : lastChunkInfo c1 c2 (n + (flatC cs1).length) cs2) :
    lastChunkInfo c c2 n (cs1 ++ cs2) := by
  rcases h2 with ⟨rfl, hl⟩ | ⟨cs0, op, ops, rfl, hl⟩
  · rcases h1 with ⟨rfl, hl1⟩ | ⟨cs0, op, ops, rfl, hl1⟩
    · exact Or.inl ⟨rfl, by rw [hl, hl1]⟩
    · refine Or.inr ⟨cs0, op, ops, by simp, by rw [hl, hl1]⟩
  · refine Or.inr ⟨cs1 ++ cs0, op, ops, by rw [List.append_assoc], ?_⟩
    rw [hl]
    have : n + (flatC cs1).length + (flatC cs0).length =
        n + (flatC (cs1 ++ cs0)).length := by
      rw [flatC_append, List.length_append]
      omega
    rw [this]

/-- `byteToOp` inverts `toByte` on every opcode. -/
theorem byteToOp_toByte (op : OpCodeType) :
    byteToOp op.toByte = .ok op := by
  cases op <;> rfl

/-- `change_operand` on a stream whose byte at `pos = P.length` starts a
3-byte single-operand instruction rewrites exactly that instruction in
place. -/
theorem change_operand_patch (c : Compiler) (P S : List Nat)
    (op : OpCodeType) (old t : Nat)
    (hI : c.instructions = P ++ make op [old] ++ S)
    (hlo : (make op [old]).length = 3)
    (hln : (make op [t]).length = 3) :
    change_operand c P.length t =
      .ok { c with instructions := P ++ make op [t] ++ S } := by
  have hassoc : c.instructions = P ++ (make op [old] ++ S) := by
    rw [hI, List.append_assoc]
  have hget : c.instructions.get? P.length = some op.toByte := by
    rw [hassoc, List.get?_append_right (Nat.le_refl _), Nat.sub_self]
    cases hm : make op [old] with
    | nil => rw [hm] at hlo; cases hlo
    | cons b rest =>
      have hb : b = op.toByte := by
        have : (make op [old]).head? = some op.toByte := by
          simp [make]
        rw [hm] at this
        simpa using this
      rw [hb]
      rfl
  unfold change_operand
  rw [hget]
  simp only [byteToOp_toByte]
  unfold replace_instructions
  rw [hln]
  have hcond : P.length + 3 ≤ c.instructions.length := by
    rw [hI]
    simp only [List.length_append, hlo]
    omega
  rw [if_pos hcond]
  have htake : c.instructions.take P.length = P := by
    rw [hassoc]
    exact List.take_left P _
  have hdrop : c.instructions.drop (P.length + 3) = S := by
    rw [hassoc]
    rw [List.drop_append]
    have : (make op [old] ++ S).drop 3 = S := by
      rw [← hlo]
      exact List.drop_left _ _
    rw [this]
  rw [htake, hdrop]
theorem make_jnt_len (x : Nat) :
    (make OpCodeType.jumpNotTruthy [x]).length = 3 := rfl

theorem make_jump_len (x : Nat) :
    (make OpCodeType.jump [x]).length = 3 := rfl

theorem startsC_single (k : Nat) (ch : OpCodeType × List Nat) :
    startsC k [ch] = [k] := rfl

theorem mem_startsC_shift (n k : Nat)
    (cs1 ds : List (OpCodeType × List Nat)) (t : Nat)
    (hk : k = n + (flatC cs1).length) (h : t ∈ startsC k ds) :
    t ∈ startsC n (cs1 ++ ds) := by
  subst hk
  rw [startsC_append]
  exact List.mem_append_right _ h

theorem flatC_end_shift (n k : Nat)
    (cs1 ds : List (OpCodeType × List Nat)) (t : Nat)
    (hk : k = n + (flatC cs1).length) (h : t = k + (flatC ds).length) :
    t = n + (flatC (cs1 ++ ds)).length := by
  subst hk
  subst h
  rw [flatC_append, List.length_append]
  omega

theorem chunkTargets_single_nonjump (op : OpCodeType) (ops : List Nat)
    (P : Nat → Prop)
    (hop : ¬(op = OpCodeType.jump ∨ op = OpCodeType.jumpNotTruthy)) :
    chunkTargets [(op, ops)] P :=
  ⟨fun hj => absurd hj hop, trivial⟩

theorem chunkTargets_single_jump (op : OpCodeType) (t : Nat)
    (P : Nat → Prop) (h : P t) : chunkTargets [(op, [t])] P :=
  ⟨fun hj => ⟨t, rfl, h⟩, trivial⟩

/-- Appending one non-jump instruction to the code of (up to) two
compiled subexpressions preserves the expression-level target
invariant. -/
theorem chunks_snoc (cA cB cC cD : Compiler) (op : OpCodeType)
    (ops : List Nat)
    (hop : ¬(op = OpCodeType.jump ∨ op = OpCodeType.jumpNotTruthy))
    (cs1 cs2 : List (OpCodeType × List Nat))
    (hI1 : cB.instructions = cA.instructions ++ flatC cs1)
    (hT1 : chunkTargets cs1 (fun t =>
      t ∈ startsC cA.instructions.length cs1 ∨
      t = cA.instructions.length + (flatC cs1).length))
    (hI2 : cC.instructions = cB.instructions ++ flatC cs2)
    (hT2 : chunkTargets cs2 (fun t =>
      t ∈ startsC cB.instructions.length cs2 ∨
      t = cB.instructions.length + (flatC cs2).length))
    (hI3 : cD.instructions = cC.instructions ++ make op ops) :
    ∃ cs, cD.instructions = cA.instructions ++ flatC cs ∧
      chunkTargets cs (fun t =>
        t ∈ startsC cA.instructions.length cs ∨
        t = cA.instructions.length + (flatC cs).length) := by
  refine ⟨cs1 ++ (cs2 ++ [(op, ops)]), ?_, ?_⟩
  · rw [hI3, hI2, hI1]
    simp [flatC_append, flatC_single, List.append_assoc]
  · rw [hI1, List.length_append] at hT2
    refine (chunkTargets_append _ _ _).mpr ⟨?_,
      (chunkTargets_append _ _ _).mpr ⟨?_, ?_⟩⟩
    · refine chunkTargets_mono _ _ _
        (targets_into_append _ _ _ (by simp) hT1) (fun t ht => Or.inl ht)
    · refine chunkTargets_mono _ _ _ hT2 ?_
      intro t ht
      left
      rcases ht with hmem | hend
      · refine mem_startsC_shift _ _ cs1 _ _ rfl ?_
        rw [startsC_append]
        exact List.mem_append_left _ hmem
      · refine mem_startsC_shift _ _ cs1 _ _ rfl ?_
        rw [startsC_append]
        refine List.mem_append_right _ ?_
        rw [hend, startsC_single]
        exact List.mem_singleton_self _
    · exact chunkTargets_single_nonjump _ _ _ hop

/-- The elision step of the `if` arm: the appended chunks of the just
compiled branch either stay as they are, or lose exactly their trailing
`Pop` chunk; in both cases the remaining chunks carry the
expression-level target invariant. -/
theorem elide_chunks (cB cC cD : Compiler)
    (cs_s : List (OpCodeType × List Nat))
    (hIs : cC.instructions = cB.instructions ++ flatC cs_s)
    (hTs : chunkTargets cs_s (fun t =>
      t ∈ startsC cB.instructions.length cs_s))
    (hLs : lastChunkInfo cB cC cB.instructions.length cs_s)
    (hlastB : ∀ i, cB.last_instruction = some i → i.op_code ≠ .pop)
    (h : (if last_instruction_is_pop cC = true then remove_last_pop cC
          else Except.ok cC) = .ok cD) :
    ∃ cs4, cD.instructions = cB.instructions ++ flatC cs4 ∧
      chunkTargets cs4 (fun t =>
        t ∈ startsC cB.instructions.length cs4 ∨
        t = cB.instructions.length + (flatC cs4).length) := by
  by_cases hpop : last_instruction_is_pop cC = true
  · rw [if_pos hpop] at h
    obtain ⟨pos, hl3⟩ := (is_pop_iff cC).mp hpop
    rcases hLs with ⟨rfl, hl⟩ | ⟨cs0, op, ops, rfl, hl⟩
    · rw [hl] at hl3
      exact absurd rfl (hlastB _ hl3)
    · rw [hl] at hl3
      have hop : op = OpCodeType.pop :=
        congrArg EmittedInstruction.op_code (Option.some.inj hl3)
      subst hop
      have heff := remove_last_pop_effect cC _ cD hl h
      have htrunc : cD.instructions = cB.instructions ++ flatC cs0 := by
        have h1 := heff.2.1
        rw [hIs, flatC_append, flatC_single, ← List.append_assoc] at h1
        rw [h1]
        show ((cB.instructions ++ flatC cs0) ++ make OpCodeType.pop ops).take
          (cB.instructions.length + (flatC cs0).length) = _
        rw [show cB.instructions.length + (flatC cs0).length =
          (cB.instructions ++ flatC cs0).length from
            (List.length_append _ _).symm]
        exact List.take_left _ _
      refine ⟨cs0, htrunc, ?_⟩
      have hT0 := ((chunkTargets_append _ _ _).mp hTs).1
      refine chunkTargets_mono _ _ _ hT0 ?_
      intro t ht
      rw [startsC_append] at ht
      rcases List.mem_append.mp ht with hm | hm
      · exact Or.inl hm
      · right
        rw [startsC_single] at hm
        simpa using hm
  · rw [if_neg hpop] at h
    cases h
    exact ⟨cs_s, hIs, chunkTargets_mono _ _ _ hTs (fun t ht => Or.inl ht)⟩

mutual
/-- The chunk decomposition of a successfully compiled expression: the
appended code is a sequence of instructions whose `Jump` /
`JumpNotTruthy` operands point at an instruction start of the appended
code or at its end. -/
theorem compileExpr_chunks (e : Expression) (c c2 : Compiler)
    (h : compileExpr c e = .ok c2) :
    ∃ cs, c2.instructions = c.instructions ++ flatC cs ∧
      chunkTargets cs (fun t =>
        t ∈ startsC c.instructions.length cs ∨
        t = c.instructions.length + (flatC cs).length) := by
  cases e with
  | identifier => cases h
  | stringLiteral => cases h
  | functionLiteral => cases h
  | call => cases h
  | arrayLiteral => cases h
  | indexExpression => cases h
  | hashLiteral => cases h
  | integerLiteral v =>
    cases h
    exact chunks_snoc c c _ _ .constant [c.constants.length]
      (by intro hj; rcases hj with hj | hj <;> cases hj) [] []
      (by simp [flatC]) trivial (by simp [flatC]) trivial
      (emit_instructions _ .constant [c.constants.length])
  | boolean v =>
    cases v
    · cases h
      exact chunks_snoc c c c _ .falseOp []
        (by intro hj; rcases hj with hj | hj <;> cases hj) [] []
        (by simp [flatC]) trivial (by simp [flatC]) trivial
        (emit_instructions c .falseOp [])
    · cases h
      exact chunks_snoc c c c _ .trueOp []
        (by intro hj; rcases hj with hj | hj <;> cases hj) [] []
        (by simp [flatC]) trivial (by simp [flatC]) trivial
        (emit_instructions c .trueOp [])
  | prefixExpr token right =>
    rw [compileExpr] at h
    obtain ⟨c1, hc1, h⟩ := except_bind_ok h
    obtain ⟨cs_r, hIr, hTr⟩ := compileExpr_chunks right c c1 hc1
    cases token with
    | bang =>
      cases h
      exact chunks_snoc c c c1 _ .bang []
        (by intro hj; rcases hj with hj | hj <;> cases hj) [] cs_r
        (by simp [flatC]) trivial hIr hTr (emit_instructions c1 .bang [])
    | minus =>
      cases h
      exact chunks_snoc c c c1 _ .minus []
        (by intro hj; rcases hj with hj | hj <;> cases hj) [] cs_r
        (by simp [flatC]) trivial hIr hTr (emit_instructions c1 .minus [])
    | plus => cases h
    | asterisk => cases h
    | slash => cases h
    | lt => cases h
    | gt => cases h
    | eq => cases h
    | ne => cases h
    | assign => cases h
    | semicolon => cases h
    | illegal => cases h
  | infixExpr token left right =>
    rw [compileExpr] at h
    by_cases hlt : token = Token.lt
    · rw [if_pos hlt] at h
      obtain ⟨c1, hc1, h⟩ := except_bind_ok h
      obtain ⟨cB, hcB, h⟩ := except_bind_ok h
      obtain ⟨cs_r, hIr, hTr⟩ := compileExpr_chunks right c c1 hc1
      obtain ⟨cs_l, hIl, hTl⟩ := compileExpr_chunks left c1 cB hcB
      cases h
      exact chunks_snoc c c1 cB _ .greaterThan []
        (by intro hj; rcases hj with hj | hj <;> cases hj) cs_r cs_l
        hIr hTr hIl hTl (emit_instructions cB .greaterThan [])
    · rw [if_neg hlt] at h
      obtain ⟨c1, hc1, h⟩ := except_bind_ok h
      obtain ⟨cB, hcB, h⟩ := except_bind_ok h
      obtain ⟨cs_l, hIl, hTl⟩ := compileExpr_chunks left c c1 hc1
      obtain ⟨cs_r, hIr, hTr⟩ := compileExpr_chunks right c1 cB hcB
      cases token with
      | plus =>
        cases h
        exact chunks_snoc c c1 cB _ .add []
          (by intro hj; rcases hj with hj | hj <;> cases hj) cs_l cs_r
          hIl hTl hIr hTr (emit_instructions cB .add [])
      | minus =>
        cases h
        exact chunks_snoc c c1 cB _ .sub []
          (by intro hj; rcases hj with hj | hj <;> cases hj) cs_l cs_r
          hIl hTl hIr hTr (emit_instructions cB .sub [])
      | asterisk =>
        cases h
        exact chunks_snoc c c1 cB _ .mul []
          (by intro hj; rcases hj with hj | hj <;> cases hj) cs_l cs_r
          hIl hTl hIr hTr (emit_instructions cB .mul [])
      | slash =>
        cases h
        exact chunks_snoc c c1 cB _ .div []
          (by intro hj; rcases hj with hj | hj <;> cases hj) cs_l cs_r
          hIl hTl hIr hTr (emit_instructions cB .div [])
      | lt => exact absurd rfl hlt
      | gt =>
        cases h
        exact chunks_snoc c c1 cB _ .greaterThan []
          (by intro hj; rcases hj with hj | hj <;> cases hj) cs_l cs_r
          hIl hTl hIr hTr (emit_instructions cB .greaterThan [])
      | eq =>
        cases h
        exact chunks_snoc c c1 cB _ .equal []
          (by intro hj; rcases hj with hj | hj <;> cases hj) cs_l cs_r
          hIl hTl hIr hTr (emit_instructions cB .equal [])
      | ne =>
        cases h
        exact chunks_snoc c c1 cB _ .notEqual []
          (by intro hj; rcases hj with hj | hj <;> cases hj) cs_l cs_r
          hIl hTl hIr hTr (emit_instructions cB .notEqual [])
      | bang => cases h
      | assign => cases h
      | semicolon => cases h
      | illegal => cases h
  | ifExpr condition consequence alternative =>
    rw [compileExpr] at h
    obtain ⟨c1, hc1, h⟩ := except_bind_ok h
    obtain ⟨c3, hc3, h⟩ := except_bind_ok h
    obtain ⟨cs_c, hIc, hTc⟩ := compileExpr_chunks condition c c1 hc1
    obtain ⟨cs_s, hIs, hTs, hLs⟩ := compileStmt_chunks consequence
      (emit c1 .jumpNotTruthy [KEKL_VALUE]).1 c3 hc3
    try simp only [] at h
    rw [if_bind_comm] at h
    obtain ⟨c4, hc4, h⟩ := except_bind_ok h
    obtain ⟨cs4, hI4, hT4⟩ := elide_chunks _ c3 c4 cs_s hIs hTs hLs
      (fun i hi => by
        rw [emit_last] at hi
        cases hi
        intro hx
        cases hx)
      hc4
    have hbase2 : (emit c1 .jumpNotTruthy [KEKL_VALUE]).1.instructions.length
        = c1.instructions.length + 3 := by
      rw [emit_instructions, List.length_append, make_jnt_len]
    have hI4a : c4.instructions =
        c1.instructions ++ make .jumpNotTruthy [KEKL_VALUE] ++ flatC cs4 := by
      rw [hI4, emit_instructions]
    rw [hbase2] at hT4
    try simp only [] at h
    cases alternative with
    | none =>
      rw [emit_pos] at h
      have hpatch := change_operand_patch c4 c1.instructions (flatC cs4)
        .jumpNotTruthy KEKL_VALUE c4.instructions.length hI4a rfl rfl
      rw [hpatch] at h
      injection h with hfin
      have hIfin : c2.instructions =
          c1.instructions ++ make .jumpNotTruthy [c4.instructions.length] ++
            flatC cs4 := by
        rw [← hfin]
      refine ⟨cs_c ++ ([(.jumpNotTruthy, [c4.instructions.length])] ++ cs4),
        ?_, ?_⟩
      · rw [hIfin, hIc]
        simp [flatC, flatC_append, flatC_single, List.append_assoc]
      · have hacp : c4.instructions.length =
            c.instructions.length +
              (flatC (cs_c ++
                ([(.jumpNotTruthy, [c4.instructions.length])] ++ cs4))).length
            := by
          conv_lhs => rw [hI4a]
          rw [hIc]
          simp [flatC, flatC_append, flatC_single, List.length_append,
            make_jnt_len]
        refine (chunkTargets_append _ _ _).mpr ⟨?_,
          (chunkTargets_append _ _ _).mpr ⟨?_, ?_⟩⟩
        · exact chunkTargets_mono _ _ _
            (targets_into_append _ _ _ (by simp) hTc) (fun t ht => Or.inl ht)
        · exact chunkTargets_single_jump _ _ _ (Or.inr hacp)
        · refine chunkTargets_mono _ _ _ hT4 ?_
          intro t ht
          rcases ht with hmem | hend
          · left
            refine mem_startsC_shift _ _ cs_c _ _ rfl ?_
            refine mem_startsC_shift _ (c1.instructions.length + 3)
              [(.jumpNotTruthy, [c4.instructions.length])] _ _ ?_ ?_
            · rw [hIc, List.length_append, flatC_single, make_jnt_len]
            · exact hmem
          · right
            refine flatC_end_shift _ _ cs_c _ _ rfl ?_
            refine flatC_end_shift _ (c1.instructions.length + 3)
              [(.jumpNotTruthy, [c4.instructions.length])] _ _ ?_ ?_
            · rw [hIc, List.length_append, flatC_single, make_jnt_len]
            · exact hend
    | some alt =>
      rw [show emit c4 OpCodeType.jump [KEKL_VALUE] =
        ((emit c4 OpCodeType.jump [KEKL_VALUE]).1,
          (emit c4 OpCodeType.jump [KEKL_VALUE]).2) from rfl] at h
      try simp only [] at h
      obtain ⟨c6, hc6, h⟩ := except_bind_ok h
      obtain ⟨c7, hc7, h⟩ := except_bind_ok h
      have hI5 : (emit c4 OpCodeType.jump [KEKL_VALUE]).1.instructions =
          c1.instructions ++ make .jumpNotTruthy [KEKL_VALUE] ++
            (flatC cs4 ++ make .jump [KEKL_VALUE]) := by
        rw [emit_instructions, hI4a]
        simp [List.append_assoc]
      have hacp5 : (emit c4 OpCodeType.jump [KEKL_VALUE]).1.instructions.length
          = c1.instructions.length + 3 + (flatC cs4).length + 3 := by
        rw [hI5]
        simp [List.length_append, make_jnt_len, make_jump_len]
        omega
      have hpatch1 := change_operand_patch
        (emit c4 OpCodeType.jump [KEKL_VALUE]).1 c1.instructions
        (flatC cs4 ++ make .jump [KEKL_VALUE]) .jumpNotTruthy KEKL_VALUE
        (emit c4 OpCodeType.jump [KEKL_VALUE]).1.instructions.length
        hI5 rfl rfl
      rw [hpatch1] at hc6
      injection hc6 with h6
      have hI6 : c6.instructions =
          c1.instructions ++
            make .jumpNotTruthy
              [(emit c4 OpCodeType.jump [KEKL_VALUE]).1.instructions.length]
            ++ (flatC cs4 ++ make .jump [KEKL_VALUE]) := by
        rw [← h6]
      have hL6 : c6.last_instruction =
          (emit c4 OpCodeType.jump [KEKL_VALUE]).1.last_instruction := by
        rw [← h6]
      obtain ⟨cs_a, hIa, hTa, hLa⟩ := compileStmt_chunks alt c6 c7 hc7
      try simp only [] at h
      rw [if_bind_comm] at h
      obtain ⟨c8, hc8, h⟩ := except_bind_ok h
      obtain ⟨cs8, hI8, hT8⟩ := elide_chunks c6 c7 c8 cs_a hIa hTa hLa
        (fun i hi => by
          rw [hL6, emit_last] at hi
          cases hi
          intro hx
          cases hx)
        hc8
      rw [emit_pos] at h
      have hjp : c4.instructions.length =
          (c1.instructions ++
            make .jumpNotTruthy
              [(emit c4 OpCodeType.jump [KEKL_VALUE]).1.instructions.length]
            ++ flatC cs4).length := by
        rw [hI4a]
        simp [List.length_append, make_jnt_len]
      rw [hjp] at h
      have hI8a : c8.instructions =
          (c1.instructions ++
            make .jumpNotTruthy
              [(emit c4 OpCodeType.jump [KEKL_VALUE]).1.instructions.length]
            ++ flatC cs4) ++ make .jump [KEKL_VALUE] ++ flatC cs8 := by
        rw [hI8, hI6]
        simp [List.append_assoc]
      have hpatch2 := change_operand_patch c8
        (c1.instructions ++
          make .jumpNotTruthy
            [(emit c4 OpCodeType.jump [KEKL_VALUE]).1.instructions.length]
          ++ flatC cs4)
        (flatC cs8) .jump KEKL_VALUE c8.instructions.length hI8a rfl rfl
      rw [hpatch2] at h
      injection h with hfin
      have hIfin : c2.instructions =
          (c1.instructions ++
            make .jumpNotTruthy
              [(emit c4 OpCodeType.jump [KEKL_VALUE]).1.instructions.length]
            ++ flatC cs4) ++ make .jump [c8.instructions.length] ++
            flatC cs8 := by
        rw [← hfin]
      refine ⟨cs_c ++
        ([(.jumpNotTruthy,
            [(emit c4 OpCodeType.jump [KEKL_VALUE]).1.instructions.length])] ++
          (cs4 ++ ([(.jump, [c8.instructions.length])] ++ cs8))), ?_, ?_⟩
      · rw [hIfin, hIc]
        simp [flatC, flatC_append, flatC_single, List.append_assoc]
      · have hlen1 : c1.instructions.length =
            c.instructions.length + (flatC cs_c).length := by
          rw [hIc, List.length_append]
        have hbase6 : c6.instructions.length =
            c1.instructions.length + 3 + (flatC cs4).length + 3 := by
          rw [hI6]
          simp [List.length_append, make_jnt_len, make_jump_len]
          omega
        have hbase8 : c8.instructions.length =
            c1.instructions.length + 3 + (flatC cs4).length + 3 +
              (flatC cs8).length := by
          rw [hI8a]
          simp [List.length_append, make_jnt_len, make_jump_len]
          omega
        rw [hbase6] at hT8
        refine (chunkTargets_append _ _ _).mpr ⟨?_,
          (chunkTargets_append _ _ _).mpr ⟨?_,
            (chunkTargets_append _ _ _).mpr ⟨?_,
              (chunkTargets_append _ _ _).mpr ⟨?_, ?_⟩⟩⟩⟩
        · exact chunkTargets_mono _ _ _
            (targets_into_append _ _ _ (by simp) hTc) (fun t ht => Or.inl ht)
        · -- the JumpNotTruthy chunk: target = start of the alternative
          -- chunks (or the overall end when the alternative is empty)
          refine chunkTargets_single_jump _ _ _ ?_
          cases hcs8 : cs8 with
          | nil =>
            right
            rw [hacp5]
            refine flatC_end_shift _ _ cs_c _ _ rfl ?_
            refine flatC_end_shift _ (c1.instructions.length + 3)
              [(.jumpNotTruthy,
                [(emit c4 OpCodeType.jump [KEKL_VALUE]).1.instructions.length])]
              _ _ ?_ ?_
            · rw [hlen1, flatC_single, make_jnt_len]
            · simp [flatC, flatC_append, flatC_single, make_jump_len,
                List.length_append]
              omega
          | cons ch8 cs8t =>
            left
            rw [hacp5]
            refine mem_startsC_shift _ _ cs_c _ _ rfl ?_
            refine mem_startsC_shift _ (c1.instructions.length + 3)
              [(.jumpNotTruthy,
                [(emit c4 OpCodeType.jump [KEKL_VALUE]).1.instructions.length])]
              _ _ ?_ ?_
            · rw [hlen1, flatC_single, make_jnt_len]
            · refine mem_startsC_shift _
                (c1.instructions.length + 3 + (flatC cs4).length) cs4 _ _
                rfl ?_
              refine mem_startsC_shift _
                (c1.instructions.length + 3 + (flatC cs4).length + 3)
                [(.jump, [c8.instructions.length])] _ _ ?_ ?_
              · rw [flatC_single, make_jump_len]
              · exact startsC_head_mem _ _ (by simp)
        · -- the consequence chunks
          refine chunkTargets_mono _ _ _ hT4 ?_
          intro t ht
          rcases ht with hmem | hend
          · left
            refine mem_startsC_shift _ _ cs_c _ _ rfl ?_
            refine mem_startsC_shift _ (c1.instructions.length + 3)
              [(.jumpNotTruthy,
                [(emit c4 OpCodeType.jump [KEKL_VALUE]).1.instructions.length])]
              _ _ ?_ ?_
            · rw [hlen1, flatC_single, make_jnt_len]
            · rw [startsC_append]
              exact List.mem_append_left _ hmem
          · left
            rw [hend]
            refine mem_startsC_shift _ _ cs_c _ _ rfl ?_
            refine mem_startsC_shift _ (c1.instructions.length + 3)
              [(.jumpNotTruthy,
                [(emit c4 OpCodeType.jump [KEKL_VALUE]).1.instructions.length])]
              _ _ ?_ ?_
            · rw [hlen1, flatC_single, make_jnt_len]
            · refine mem_startsC_shift _
                (c1.instructions.length + 3 + (flatC cs4).length) cs4 _ _
                rfl ?_
              exact startsC_head_mem _ _ (by simp)
        · -- the Jump chunk: target = overall end
          refine chunkTargets_single_jump _ _ _ (Or.inr ?_)
          rw [hbase8]
          refine flatC_end_shift _ _ cs_c _ _ rfl ?_
          refine flatC_end_shift _ (c1.instructions.length + 3)
            [(.jumpNotTruthy,
                [(emit c4 OpCodeType.jump [KEKL_VALUE]).1.instructions.length])]
            _ _ ?_ ?_
          · rw [hlen1, flatC_single, make_jnt_len]
          · simp [flatC, flatC_append, flatC_single, make_jump_len,
              List.length_append]
            omega
        · -- the alternative chunks
          refine chunkTargets_mono _ _ _ hT8 ?_
          intro t ht
          rcases ht with hmem | hend
          · left
            refine mem_startsC_shift _ _ cs_c _ _ rfl ?_
            refine mem_startsC_shift _ (c1.instructions.length + 3)
              [(.jumpNotTruthy,
                [(emit c4 OpCodeType.jump [KEKL_VALUE]).1.instructions.length])]
              _ _ ?_ ?_
            · rw [hlen1, flatC_single, make_jnt_len]
            · refine mem_startsC_shift _
                (c1.instructions.length + 3 + (flatC cs4).length) cs4 _ _
                rfl ?_
              refine mem_startsC_shift _
                (c1.instructions.length + 3 + (flatC cs4).length + 3)
                [(.jump, [c8.instructions.length])] _ _ ?_ ?_
              · rw [flatC_single, make_jump_len]
              · exact hmem
          · right
            rw [hend]
            refine flatC_end_shift _ _ cs_c _ _ rfl ?_
            refine flatC_end_shift _ (c1.instructions.length + 3)
              [(.jumpNotTruthy,
                [(emit c4 OpCodeType.jump [KEKL_VALUE]).1.instructions.length])]
              _ _ ?_ ?_
            · rw [hlen1, flatC_single, make_jnt_len]
            · simp [flatC, flatC_append, flatC_single, make_jump_len,
                List.length_append]
              omega

/-- The chunk decomposition of a successfully compiled statement: all
jump operands point strictly at instruction starts of the appended code,
and `last_instruction` records the last appended chunk. -/
theorem compileStmt_chunks (s : Statement) (c c2 : Compiler)
    (h : compileStmt c s = .ok c2) :
    ∃ cs, c2.instructions = c.instructions ++ flatC cs ∧
      chunkTargets cs (fun t => t ∈ startsC c.instructions.length cs) ∧
      lastChunkInfo c c2 c.instructions.length cs := by
  cases s with
  | letStmt => cases h
  | returnStmt => cases h
  | expression e =>
    rw [compileStmt] at h
    obtain ⟨c1, hc1, h⟩ := except_bind_ok h
    obtain ⟨cs_e, hIe, hTe⟩ := compileExpr_chunks e c c1 hc1
    cases h
    refine ⟨cs_e ++ [(.pop, [])], ?_, ?_, ?_⟩
    · rw [emit_instructions, hIe]
      simp [flatC_append, flatC_single, List.append_assoc]
    · refine (chunkTargets_append _ _ _).mpr
        ⟨targets_into_append _ _ _ (by simp) hTe,
          chunkTargets_single_nonjump _ _ _ (by
            intro hj
            rcases hj with hj | hj <;> cases hj)⟩
    · refine Or.inr ⟨cs_e, .pop, [], rfl, ?_⟩
      rw [emit_last, hIe, List.length_append]
  | block statements =>
    rw [compileStmt] at h
    exact compileStmtList_chunks statements c c2 h

/-- The chunk decomposition of a successfully compiled statement list. -/
theorem compileStmtList_chunks (l : List Statement) (c c2 : Compiler)
    (h : compileStmtList c l = .ok c2) :
    ∃ cs, c2.instructions = c.instructions ++ flatC cs ∧
      chunkTargets cs (fun t => t ∈ startsC c.instructions.length cs) ∧
      lastChunkInfo c c2 c.instructions.length cs := by
  cases l with
  | nil =>
    cases h
    exact ⟨[], by simp [flatC], trivial, Or.inl ⟨rfl, rfl⟩⟩
  | cons s rest =>
    rw [compileStmtList] at h
    obtain ⟨c1, hc1, h⟩ := except_bind_ok h
    obtain ⟨cs1, hI1, hT1, hL1⟩ := compileStmt_chunks s c c1 hc1
    obtain ⟨cs2, hI2, hT2, hL2⟩ := compileStmtList_chunks rest c1 c2 h
    refine ⟨cs1 ++ cs2, ?_, ?_, ?_⟩
    · rw [hI2, hI1, flatC_append, List.append_assoc]
    · rw [hI1, List.length_append] at hT2
      refine (chunkTargets_append _ _ _).mpr ⟨?_, ?_⟩
      · refine chunkTargets_mono _ _ _ hT1 ?_
        intro t ht
        rw [startsC_append]
        exact List.mem_append_left _ ht
      · refine chunkTargets_mono _ _ _ hT2 ?_
        intro t ht
        exact mem_startsC_shift _ _ cs1 _ _ rfl ht
    · rw [hI1, List.length_append] at hL2
      exact lastChunkInfo_comp c c1 c2 _ cs1 cs2 hL1 hL2
end
/-- Byte-level reading of the patched jumps: at every `Jump` /
`JumpNotTruthy` chunk the two operand bytes decode (via `read_u16`) to a
position in `B`. -/
def jumpsPatched (I : List Nat) (B : List Nat) :
    Nat → List (OpCodeType × List Nat) → Prop
  | _, [] => True
  | p, ch :: cs =>
    ((ch.1 = OpCodeType.jump ∨ ch.1 = OpCodeType.jumpNotTruthy) →
      ∃ t, read_u16_at I (p + 1) = .ok t ∧ t ∈ B) ∧
    jumpsPatched I B (p + (make ch.1 ch.2).length) cs

/-- Chunked code laid out inside `I` whose jump targets are in `B` and
small enough not to be truncated by the 2-byte operand encoding reads
back exactly those targets. -/
theorem chunks_read_back (I : List Nat) (B : List Nat) :
    ∀ (cs : List (OpCodeType × List Nat)) (p : Nat),
      SegAt I p (flatC cs) →
      chunkTargets cs (fun t => t ∈ B ∧ t < 65536) →
      jumpsPatched I B p cs
  | [], _, _, _ => trivial
  | (op, ops) :: cs, p, hseg, hT => by
    rw [show flatC ((op, ops) :: cs) = make op ops ++ flatC cs from rfl,
      segAt_append] at hseg
    obtain ⟨hhead, htail⟩ := hseg
    refine ⟨?_, chunks_read_back I B cs (p + (make op ops).length) htail
      hT.2⟩
    intro hj
    obtain ⟨t, hops, hB, h16⟩ := hT.1 hj
    subst hops
    rcases hj with rfl | rfl
    · have h1 := hhead 1 (by rw [make_jump_len]; omega)
      have h2 := hhead 2 (by rw [make_jump_len]; omega)
      rw [show (make OpCodeType.jump [t]).get? 1 =
        some (t / 256 % 256) from rfl] at h1
      rw [show (make OpCodeType.jump [t]).get? 2 =
        some (t % 256) from rfl] at h2
      refine ⟨t, ?_, hB⟩
      unfold read_u16_at
      rw [h1, h2]
      show Except.ok (t / 256 % 256 * 256 + t % 256) =
        (Except.ok t : Except Failure Nat)
      rw [show t / 256 % 256 * 256 + t % 256 = t from by omega]
    · have h1 := hhead 1 (by rw [make_jnt_len]; omega)
      have h2 := hhead 2 (by rw [make_jnt_len]; omega)
      rw [show (make OpCodeType.jumpNotTruthy [t]).get? 1 =
        some (t / 256 % 256) from rfl] at h1
      rw [show (make OpCodeType.jumpNotTruthy [t]).get? 2 =
        some (t % 256) from rfl] at h2
      refine ⟨t, ?_, hB⟩
      unfold read_u16_at
      rw [h1, h2]
      show Except.ok (t / 256 % 256 * 256 + t % 256) =
        (Except.ok t : Except Failure Nat)
      rw [show t / 256 % 256 * 256 + t % 256 = t from by omega]

/-! ## Claim C7 -/

/-- Claim C7 (corrected to statement programs and streams that fit the
2-byte operand encoding): for every statement-list program that compiles
successfully into at most 65536 instruction bytes, the final stream
decomposes into instructions, every instruction start lies strictly
inside the stream, and every `Jump` / `JumpNotTruthy` operand decodes to
one of those instruction starts — in particular the operand of a jump
emitted for the outermost `if` of a statement decodes to the position of
the `Pop` emitted right after it by the enclosing expression
statement. -/
theorem patched_jump_operands_hit_instruction_starts (l : List Statement)
    (c2 : Compiler) (h : compile Compiler.new (.statements l) = .ok c2)
    (hlen : c2.instructions.length ≤ 65536) :
    ∃ cs : List (OpCodeType × List Nat),
      c2.instructions = flatC cs ∧
      (∀ q ∈ startsC 0 cs, q < c2.instructions.length) ∧
      jumpsPatched c2.instructions (startsC 0 cs) 0 cs := by
  rw [compile] at h
  obtain ⟨cs, hI, hT, hL⟩ := compileStmtList_chunks l Compiler.new c2 h
  have hI0 : c2.instructions = flatC cs := by
    rw [hI]
    rfl
  rw [show (Compiler.new.instructions : List Nat).length = 0 from rfl] at hT
  refine ⟨cs, hI0, ?_, ?_⟩
  · intro q hq
    have := mem_startsC_lt 0 cs q hq
    rw [hI0]
    omega
  · refine chunks_read_back _ _ cs 0 ?_ ?_
    · rw [hI0]
      exact segAt_refl _
    · refine chunkTargets_mono _ _ _ hT ?_
      intro t ht
      have hlt := mem_startsC_lt 0 cs t ht
      rw [hI0] at hlen
      exact ⟨ht, by omega⟩

/-- Claim C7, counterexample to the unrestricted claim: a bare
`Program::Expression` if-program compiles successfully, yet the patched
`JumpNotTruthy` operand decodes to the full stream length — one past the
last byte, not a valid offset within the stream — because no enclosing
expression statement ever emits the `Pop` the operand would point at. -/
theorem bare_if_jump_operand_escapes_stream :
    ∃ c2, compile Compiler.new (.expression (.ifExpr (.boolean true)
        (.block [.expression (.integerLiteral 1)]) none)) = .ok c2 ∧
      c2.instructions.get? 1 = some 13 ∧
      read_u16_at c2.instructions 2 = .ok c2.instructions.length :=
  ⟨Compiler.mk [6, 13, 0, 7, 0, 0, 0] [Object.integer 1]
      (some ⟨.constant, 4⟩) (some ⟨.constant, 4⟩), rfl, rfl, rfl⟩

theorem patched_jump_operands_hit_instruction_starts_witness :
    ∃ cs : List (OpCodeType × List Nat),
      (Compiler.mk [6, 13, 0, 10, 0, 0, 0, 14, 0, 13, 0, 0, 1, 1]
        [Object.integer 1, Object.integer 2]
        (some ⟨.pop, 13⟩) (some ⟨.constant, 10⟩)).instructions = flatC cs ∧
      (∀ q ∈ startsC 0 cs,
        q < (Compiler.mk [6, 13, 0, 10, 0, 0, 0, 14, 0, 13, 0, 0, 1, 1]
          [Object.integer 1, Object.integer 2]
          (some ⟨.pop, 13⟩) (some ⟨.constant, 10⟩)).instructions.length) ∧
      jumpsPatched
        (Compiler.mk [6, 13, 0, 10, 0, 0, 0, 14, 0, 13, 0, 0, 1, 1]
          [Object.integer 1, Object.integer 2]
          (some ⟨.pop, 13⟩) (some ⟨.constant, 10⟩)).instructions
        (startsC 0 cs) 0 cs :=
  patched_jump_operands_hit_instruction_starts
    [.expression (.ifExpr (.boolean true)
      (.block [.expression (.integerLiteral 1)])
      (some (.block [.expression (.integerLiteral 2)])))]
    (Compiler.mk [6, 13, 0, 10, 0, 0, 0, 14, 0, 13, 0, 0, 1, 1]
      [Object.integer 1, Object.integer 2]
      (some ⟨.pop, 13⟩) (some ⟨.constant, 10⟩))
    rfl (by decide)

/-! ## Claim C4 (amended theorem) -/

/-- Claim C4 (amended): executing `Div` on `Integer l` and `Integer r`
(via `Constant 0; Constant 1; Div`): Rust `i64` division panics — in
every build profile, not just debug — both on a zero divisor and on the
overflowing `i64::MIN / -1`, so `run` crashes without returning an error
value in exactly those cases; for every other operand pair it succeeds,
leaving `Integer (l / r)` (truncating division) pushed on the stack
(`sp = 1`, the quotient in slot 0). -/
theorem div_panics_on_zero_or_overflow_else_divides (l r : Int) :
    (r = 0 ∨ (l = -(2 ^ 63) ∧ r = -1) →
      Vm.run (Vm.new (ByteCode.mk [0, 0, 0, 0, 0, 1, 5]
          [.integer l, .integer r])) = .error .panics) ∧
    (¬(r = 0 ∨ (l = -(2 ^ 63) ∧ r = -1)) →
      Vm.run (Vm.new (ByteCode.mk [0, 0, 0, 0, 0, 1, 5]
          [.integer l, .integer r])) =
        .ok (Vm.mk [.integer l, .integer r] [0, 0, 0, 0, 0, 1, 5]
          ((((List.replicate STACK_SIZE Object.null).set 0
              (.integer l)).set 1 (.integer r)).set 0
                (.integer (Int.tdiv l r))) 1)) := by
  have hr2 : (((List.replicate STACK_SIZE Object.null).set 0
      (.integer l)).set 1 (.integer r)).get? 1 = some (Object.integer r) :=
    get?_set_self _ _ _ (by simp [STACK_SIZE])
  have hl2 : (((List.replicate STACK_SIZE Object.null).set 0
      (.integer l)).set 1 (.integer r)).get? 0 = some (Object.integer l) := by
    rw [List.get?_set_ne _ _ (by omega)]
    exact get?_set_self _ _ _ (by simp [STACK_SIZE])
  have hrun : ∀ g : Nat,
      run_loop [0, 0, 0, 0, 0, 1, 5] [.integer l, .integer r] (g + 3)
        (List.replicate STACK_SIZE Object.null) 0 0 =
      (execute_binary_operation
          (((List.replicate STACK_SIZE Object.null).set 0
            (.integer l)).set 1 (.integer r)) (0 + 2) .div >>= fun s =>
        run_loop [0, 0, 0, 0, 0, 1, 5] [.integer l, .integer r] g
          s.1 s.2 7) := by
    intro g
    rw [show g + 3 = g + 2 + 1 from rfl]
    rw [run_step_const [0, 0, 0, 0, 0, 1, 5] [.integer l, .integer r]
      (g + 2) (List.replicate STACK_SIZE Object.null) 0 0 0 (.integer l)
      rfl rfl rfl]
    rw [vm_push_ok _ _ _ (by decide), ok_bind]
    dsimp only
    rw [show (0 + 2 + 1 : Nat) = 3 from rfl]
    rw [show g + 2 = g + 1 + 1 from rfl]
    rw [run_step_const [0, 0, 0, 0, 0, 1, 5] [.integer l, .integer r]
      (g + 1) ((List.replicate STACK_SIZE Object.null).set 0 (.integer l))
      1 3 1 (.integer r) rfl rfl rfl]
    rw [vm_push_ok _ _ _ (by decide), ok_bind]
    dsimp only
    rw [show (3 + 2 + 1 : Nat) = 6 from rfl]
    rw [run_step_binary [0, 0, 0, 0, 0, 1, 5] [.integer l, .integer r] g
      _ 2 6 5 .div rfl rfl (Or.inr (Or.inr (Or.inr rfl)))]
  constructor
  · intro hc
    rw [Vm.new_mk, Vm.run_mk]
    rw [show ([0, 0, 0, 0, 0, 1, 5] : List Nat).length + 1 = 5 + 3 from rfl]
    rw [hrun 5]
    rw [ebo_div_panics _ 0 l r (by decide) hc hr2 hl2, err_bind]
  · intro hc
    rw [Vm.new_mk, Vm.run_mk]
    rw [show ([0, 0, 0, 0, 0, 1, 5] : List Nat).length + 1 = 5 + 3 from rfl]
    rw [hrun 5]
    rw [ebo_div 
      (((List.replicate STACK_SIZE Object.null).set 0
        (.integer l)).set 1 (.integer r)) 0 l r (by decide) hc hr2 hl2]
    rw [vm_push_ok _ _ _ (by decide), ok_bind]
    dsimp only
    rw [run_loop_done _ _ _ _ _ _ (by decide)]

/-- Witness for `div_panics_on_zero_or_overflow_else_divides` at the
zero-divisor pair `(1, 0)`, the overflow pair `(i64::MIN, -1)` and the
ordinary pair `(7, 2)`. -/
theorem div_panics_on_zero_or_overflow_else_divides_witness :
    Vm.run (Vm.new (ByteCode.mk [0, 0, 0, 0, 0, 1, 5]
        [.integer 1, .integer 0])) = .error .panics ∧
    Vm.run (Vm.new (ByteCode.mk [0, 0, 0, 0, 0, 1, 5]
        [.integer (-(2 ^ 63)), .integer (-1)])) = .error .panics ∧
    Vm.run (Vm.new (ByteCode.mk [0, 0, 0, 0, 0, 1, 5]
        [.integer 7, .integer 2])) =
      .ok (Vm.mk [.integer 7, .integer 2] [0, 0, 0, 0, 0, 1, 5]
        ((((List.replicate STACK_SIZE Object.null).set 0
            (.integer 7)).set 1 (.integer 2)).set 0
              (.integer (Int.tdiv 7 2))) 1) :=
  ⟨(div_panics_on_zero_or_overflow_else_divides 1 0).1 (Or.inl rfl),
   (div_panics_on_zero_or_overflow_else_divides (-(2 ^ 63)) (-1)).1
     (Or.inr ⟨rfl, rfl⟩),
   (div_panics_on_zero_or_overflow_else_divides 7 2).2 (by decide)⟩
